import Mathlib

/-!
# Region tag store (inet/common/packet/tag/RegionTagSet)

A shallow embedding of `RegionTagSet.h` / `RegionTagSet.cc` and theorems about it.

Modelling conventions
* `b` (a bit count, a signed integral unit) is `Int`; no operation here relies on wrap-around.
* A `cObject *` tag is a value `Tag` with a runtime type identifier and a payload; `dup()` returns
  an equal value and `new T()` the default value of type `T`.
* `std::vector<RegionTag<cObject>> *regionTags` is `Option (List RegionTag)`; `none` is `nullptr`.
* A vector iterator is a position in the list, and a reference obtained from `*it` denotes the
  slot at that position: the behaviour of a contiguous vector that does not reallocate
  (`ensureAllocated` reserves 16 slots). `erase(it--)` followed by `it++` leaves the position
  where it is, also at position 0.
* `std::sort` with `operator<` (offset comparison) is the stable insertion sort by offset, which is
  what the usual library implementations run on short vectors.
* A thrown `cRuntimeError`, a failed `ASSERT`, an unchecked out-of-range index and a loop that does
  not finish are values of `Error`.
* A callback-taking traversal returns the list of the argument triples of its calls of `f`.
* A `cObject *` returned by a removal is a `TagPointer`, which records whether the object behind
  it is still alive when the call returns.
* `const` methods return their outcome only. Non-`const` methods that may throw return the outcome
  together with the store after the call. Methods that run the loop of `clearTags` return the
  store inside the outcome, since a run that does not finish leaves no store.
-/

namespace inet

/-- Runtime-typed tag object: `typeId` stands for `typeid(*tag)`, `value` for its payload. -/
structure Tag where
  typeId : Nat
  value : Nat
deriving DecidableEq, Repr

/-- Default construction, `new T()`. -/
def Tag.new (T : Nat) : Tag := ⟨T, 0⟩

/-- Duplication, `tag->dup()`: a new object with an equal value. -/
def Tag.dup (t : Tag) : Tag := t

/-- A `cObject *` handed to the caller by a removal, with the state of the object behind it. -/
inductive TagPointer where
  /-- The tag pointed to is alive and now belongs to the caller. -/
  | live (tag : Tag)
  /-- The tag pointed to has been deleted; nothing can be read through the pointer. -/
  | dangling
deriving DecidableEq, Repr

/-- The class `RegionTag<cObject>`: a tag for the range identified by offset and length. -/
structure RegionTag where
  offset : Int
  length : Int
  tag : Tag
deriving DecidableEq, Repr

namespace RegionTag

def getOffset (r : RegionTag) : Int := r.offset

def getLength (r : RegionTag) : Int := r.length

def getStartOffset (r : RegionTag) : Int := r.offset

def getEndOffset (r : RegionTag) : Int := r.offset + r.length

def getTag (r : RegionTag) : Tag := r.tag

def setOffset (r : RegionTag) (offset : Int) : RegionTag := { r with offset := offset }

def setLength (r : RegionTag) (length : Int) : RegionTag := { r with length := length }

/-- Negation of `operator<` with the arguments swapped: `a` may stand before `b` in sorted order. -/
def le (a b : RegionTag) : Prop := a.offset ≤ b.offset

instance : DecidableRel RegionTag.le := fun a b => inferInstanceAs (Decidable (a.offset ≤ b.offset))

instance : IsTotal RegionTag RegionTag.le := ⟨fun a b => Int.le_total a.offset b.offset⟩

instance : IsTrans RegionTag RegionTag.le := ⟨fun _ _ _ h₁ h₂ => Int.le_trans h₁ h₂⟩

end RegionTag

/-- Failures of a call. -/
inductive Error where
  /-- The error thrown with the message "Tag ... is absent". -/
  | tagAbsent
  /-- The error thrown with the message "Tag ... is present". -/
  | tagPresent
  /-- The error thrown with the message "Overlapping tag is present". -/
  | overlappingTag
  /-- The branch `ASSERT(false)`. -/
  | assertFailed
  /-- Unchecked `operator[]` outside the vector, or a dereferenced `nullptr`. -/
  | undefinedBehavior
  /-- The exception `std::out_of_range` thrown by the checked `at(index)`. -/
  | indexOutOfRange
  /-- The loop is still running after the steps it was given. For `clearTags` this is the run in
  which the vector has spare capacity at every `insert`; when `insert` reallocates, `it` and
  `regionTag` point into freed storage and the call has undefined behaviour instead. Either way
  no store is returned. -/
  | nonTermination
deriving DecidableEq, Repr

deriving instance DecidableEq for Except

/-- The call `std::sort(regionTags->begin(), regionTags->end())`. -/
def sortRegionTags (v : List RegionTag) : List RegionTag := v.insertionSort RegionTag.le

/-- The class `RegionTagSet`; its only data member is `regionTags`. -/
structure RegionTagSet where
  regionTags : Option (List RegionTag)
deriving DecidableEq, Repr

namespace RegionTagSet

/-- The default constructor: `regionTags(nullptr)`. -/
def empty : RegionTagSet := ⟨none⟩

/-- The stored region tags in vector order; the empty list for `nullptr`. -/
def tags (s : RegionTagSet) : List RegionTag := s.regionTags.getD []

def getNumTags (s : RegionTagSet) : Int :=
  match s.regionTags with
  | none => 0
  | some v => v.length

def ensureAllocated (s : RegionTagSet) : RegionTagSet :=
  match s.regionTags with
  | none => ⟨some []⟩
  | some _ => s

/-- Raw insertion `addTag(b offset, b length, cObject *tag)`. -/
def addTag (s : RegionTagSet) (offset length : Int) (tag : Tag) : RegionTagSet :=
  ⟨some (sortRegionTags (s.ensureAllocated.tags ++ [⟨offset, length, tag⟩]))⟩

/-- Loop of the raw `mapAllTags`; the result lists the arguments of the calls of `f` in order. -/
def mapAllTagsLoop (startOffset endOffset : Int) :
    List RegionTag → Except Error (List RegionTag)
  | [] => .ok []
  | regionTag :: rest =>
    if endOffset ≤ regionTag.getStartOffset ∨ regionTag.getEndOffset ≤ startOffset then
      mapAllTagsLoop startOffset endOffset rest
    else if startOffset ≤ regionTag.getStartOffset ∧ regionTag.getEndOffset ≤ endOffset then
      (mapAllTagsLoop startOffset endOffset rest).map
        (⟨regionTag.getOffset, regionTag.getLength, regionTag.getTag⟩ :: ·)
    else if regionTag.getStartOffset < startOffset ∧ endOffset < regionTag.getEndOffset then
      (mapAllTagsLoop startOffset endOffset rest).map
        (⟨startOffset, endOffset - startOffset, regionTag.getTag⟩ :: ·)
    else if regionTag.getEndOffset ≤ endOffset then
      (mapAllTagsLoop startOffset endOffset rest).map
        (⟨startOffset, regionTag.getEndOffset - startOffset, regionTag.getTag⟩ :: ·)
    else if startOffset ≤ regionTag.getStartOffset then
      (mapAllTagsLoop startOffset endOffset rest).map
        (⟨regionTag.getStartOffset, endOffset - regionTag.getStartOffset, regionTag.getTag⟩ :: ·)
    else
      .error .assertFailed

/-- Raw `mapAllTags(b offset, b length, f) const`: the calls `f(o, l, tag)` it makes, in order. -/
def mapAllTags (s : RegionTagSet) (offset length : Int) : Except Error (List RegionTag) :=
  match s.regionTags with
  | none => .ok []
  | some v => mapAllTagsLoop offset (offset + length) v

/-- Raw `getAllTags(b offset, b length) const`: every reported slice with a duplicated tag. -/
def getAllTags (s : RegionTagSet) (offset length : Int) : Except Error (List RegionTag) :=
  (s.mapAllTags offset length).map (List.map fun r => ⟨r.offset, r.length, r.tag.dup⟩)

/-- Raw `removeTag(int index)`: the tag pointer is read with unchecked indexing, the region is
erased, and the pointer is returned. `erase` move-assigns the following regions one slot down and
destroys the last slot; the move assignment of `RegionTag` (for the last position, its
destructor) executes `delete tag` on the region at `index`, so the tag is deleted before its
pointer is returned. -/
def removeTag (s : RegionTagSet) (index : Int) : Except Error TagPointer × RegionTagSet :=
  match s.regionTags with
  | none => (.error .undefinedBehavior, s)
  | some v =>
    if index < 0 then (.error .undefinedBehavior, s)
    else
      match v[index.toNat]? with
      | none => (.error .undefinedBehavior, s)
      | some _ => (.ok .dangling, ⟨some (v.eraseIdx index.toNat)⟩)

/-- Loop of `getTagIndex`; `index` is the position of the head of the remaining list. -/
def getTagIndexLoop (typeInfo : Nat) (offset length : Int) :
    List RegionTag → Int → Except Error Int
  | [], _ => .ok (-1)
  | regionTag :: rest, index =>
    if typeInfo ≠ regionTag.getTag.typeId ∨ offset + length ≤ regionTag.getStartOffset
        ∨ regionTag.getEndOffset ≤ offset then
      getTagIndexLoop typeInfo offset length rest (index + 1)
    else if regionTag.getOffset = offset ∧ regionTag.getLength = length then
      .ok index
    else
      .error .overlappingTag

/-- The method `getTagIndex(typeInfo, offset, length) const`, also `getTagIndex<T>`. -/
def getTagIndex (s : RegionTagSet) (typeInfo : Nat) (offset length : Int) : Except Error Int :=
  match s.regionTags with
  | none => .ok (-1)
  | some v => getTagIndexLoop typeInfo offset length v 0

/-- Write through the reference to the slot at position `it`. -/
def updateSlot (v : List RegionTag) (it : Nat) (f : RegionTag → RegionTag) : List RegionTag :=
  v.modify f it

/-- Loop of `clearTags`. `it` is the iterator position, `v` the vector. Erasing at `it` followed by
`it--` and the `it++` of the loop head leaves the position where it is. In the splitting branch the
new region is inserted at `it`, which moves the current region one slot up; `regionTag` still
denotes slot `it`, so `setLength` and `setOffset` write to the slot that now holds the inserted
region, and `it++` arrives at the moved region again. -/
def clearTagsLoop (clearStartOffset clearEndOffset : Int) :
    Nat → Nat → List RegionTag → Except Error (List RegionTag)
  | 0, _, _ => .error .nonTermination
  | fuel + 1, it, v =>
    match v[it]? with
    | none => .ok v
    | some regionTag =>
      if clearEndOffset ≤ regionTag.getStartOffset
          ∨ regionTag.getEndOffset ≤ clearStartOffset then
        clearTagsLoop clearStartOffset clearEndOffset fuel (it + 1) v
      else if clearStartOffset ≤ regionTag.getStartOffset
          ∧ regionTag.getEndOffset ≤ clearEndOffset then
        clearTagsLoop clearStartOffset clearEndOffset fuel it (v.eraseIdx it)
      else if regionTag.getStartOffset < clearStartOffset
          ∧ clearEndOffset < regionTag.getEndOffset then
        let tag := regionTag.getTag.dup
        let previousRegion : RegionTag :=
          ⟨regionTag.getStartOffset, clearStartOffset - regionTag.getStartOffset, tag⟩
        let v₁ := v.insertIdx it
          ⟨previousRegion.offset, previousRegion.length, previousRegion.tag.dup⟩
        let v₂ := updateSlot v₁ it fun r => r.setLength (r.getEndOffset - clearEndOffset)
        let v₃ := updateSlot v₂ it fun r => r.setOffset clearEndOffset
        clearTagsLoop clearStartOffset clearEndOffset fuel (it + 1) v₃
      else if regionTag.getEndOffset ≤ clearEndOffset then
        clearTagsLoop clearStartOffset clearEndOffset fuel (it + 1)
          (updateSlot v it fun r => r.setLength (clearStartOffset - r.getStartOffset))
      else if clearStartOffset ≤ regionTag.getStartOffset then
        let v₁ := updateSlot v it fun r => r.setLength (r.getEndOffset - clearEndOffset)
        let v₂ := updateSlot v₁ it fun r => r.setOffset clearEndOffset
        clearTagsLoop clearStartOffset clearEndOffset fuel (it + 1) v₂
      else
        .error .assertFailed

/-- The method `clearTags(b offset, b length)`. Every iteration that does not split either advances
`it` or shortens the vector, so `size + 1` steps are enough for any run that never takes the
splitting branch (`clearTagsLoop_fuel_irrelevant`); a run that takes it never finishes
(`clearTagsLoop_diverges`). -/
def clearTags (s : RegionTagSet) (offset length : Int) : Except Error RegionTagSet :=
  match s.regionTags with
  | none => .ok s
  | some v => (clearTagsLoop offset (offset + length) (v.length + 1) 0 v).map fun w => ⟨some w⟩

/-- The method `copyTags(source, sourceOffset, offset, length)`. `sourceOf` gives the state of the
object behind the reference `source` at the moment `source.getAllTags` runs, as a function of the
state of `*this` at that moment: constant for a distinct object, the identity when `source` is
`*this`. -/
def copyTagsFrom (sourceOf : RegionTagSet → RegionTagSet) (s : RegionTagSet)
    (sourceOffset offset length : Int) : Except Error RegionTagSet :=
  match s.clearTags offset length with
  | .error e => .error e
  | .ok s₁ =>
    let s₂ := s₁.ensureAllocated
    let shift := offset - sourceOffset
    match (sourceOf s₂).getAllTags sourceOffset length with
    | .error e => .error e
    | .ok regionTags =>
      .ok (regionTags.foldl
        (fun acc regionTag =>
          acc.addTag (regionTag.getOffset + shift) regionTag.getLength regionTag.getTag.dup) s₂)

/-- The call `dest.copyTags(source, ...)` with `source` an object other than `dest`. -/
def copyTags (s source : RegionTagSet) (sourceOffset offset length : Int) :
    Except Error RegionTagSet :=
  copyTagsFrom (fun _ => source) s sourceOffset offset length

/-- The call `x.copyTags(x, ...)`: the reference `source` is `*this`. -/
def copyTagsSelf (s : RegionTagSet) (sourceOffset offset length : Int) :
    Except Error RegionTagSet :=
  copyTagsFrom id s sourceOffset offset length

/-- The method `moveTags(b shift)`. -/
def moveTags (s : RegionTagSet) (shift : Int) : RegionTagSet :=
  match s.regionTags with
  | none => s
  | some v => ⟨some (v.map fun regionTag => regionTag.setOffset (regionTag.getOffset + shift))⟩

/-- First loop of `splitTags<T>`: the vector after the `setLength` calls and the collected
`insertedRegionTags`. The template parameter is not consulted by the source. -/
def splitTagsLoop (offset : Int) : List RegionTag → List RegionTag × List RegionTag
  | [] => ([], [])
  | regionTag :: rest =>
    let (v, insertedRegionTags) := splitTagsLoop offset rest
    if regionTag.getStartOffset < offset ∧ offset < regionTag.getEndOffset then
      let regionTag₁ := regionTag.setLength (offset - regionTag.getStartOffset)
      (regionTag₁ :: v,
        ⟨offset, regionTag₁.getEndOffset - offset, regionTag₁.getTag.dup⟩ :: insertedRegionTags)
    else
      (regionTag :: v, insertedRegionTags)

/-- The method `splitTags<T>(b offset)`. -/
def splitTags (s : RegionTagSet) (_T : Nat) (offset : Int) : RegionTagSet :=
  match s.regionTags with
  | none => s
  | some v =>
    let (v₁, insertedRegionTags) := splitTagsLoop offset v
    ⟨some (sortRegionTags
      (v₁ ++ insertedRegionTags.map fun r => ⟨r.getOffset, r.getLength, r.getTag.dup⟩))⟩

/-- The expression `(*regionTags)[index]`. -/
def elementAt (s : RegionTagSet) (index : Int) : Except Error RegionTag :=
  match s.regionTags with
  | none => .error .undefinedBehavior
  | some v =>
    if index < 0 then .error .undefinedBehavior
    else
      match v[index.toNat]? with
      | none => .error .undefinedBehavior
      | some regionTag => .ok regionTag

/-- The method `findTag<T>(b offset, b length) const`; `none` is `nullptr`. -/
def findTag (s : RegionTagSet) (T : Nat) (offset length : Int) : Except Error (Option Tag) :=
  match s.getTagIndex T offset length with
  | .error e => .error e
  | .ok index =>
    if index = -1 then .ok none
    else (s.elementAt index).map fun regionTag => some regionTag.getTag

/-- The method `getTag<T>(b offset, b length) const`. -/
def getTagT (s : RegionTagSet) (T : Nat) (offset length : Int) : Except Error Tag :=
  match s.getTagIndex T offset length with
  | .error e => .error e
  | .ok index =>
    if index = -1 then .error .tagAbsent
    else (s.elementAt index).map fun regionTag => regionTag.getTag

/-- The method `addTag<T>(b offset, b length)`. -/
def addTagT (s : RegionTagSet) (T : Nat) (offset length : Int) : Except Error Tag × RegionTagSet :=
  match s.getTagIndex T offset length with
  | .error e => (.error e, s)
  | .ok index =>
    if index ≠ -1 then (.error .tagPresent, s)
    else
      let tag := Tag.new T
      (.ok tag, s.addTag offset length tag)

/-- The method `addTagIfAbsent<T>(b offset, b length)`. -/
def addTagIfAbsent (s : RegionTagSet) (T : Nat) (offset length : Int) :
    Except Error Tag × RegionTagSet :=
  match s.findTag T offset length with
  | .error e => (.error e, s)
  | .ok (some tag) => (.ok tag, s)
  | .ok none =>
    let tag := Tag.new T
    (.ok tag, s.addTag offset length tag)

/-- Scanning loop of `addTagsWhereAbsent<T>`; the state is `o` and `result`, and the `break` ends
the scan. -/
def addTagsWhereAbsentLoop (T : Nat) (endOffset : Int) :
    List RegionTag → Int → List RegionTag → Int × List RegionTag
  | [], o, result => (o, result)
  | regionTag :: rest, o, result =>
    if regionTag.getTag.typeId = T then
      let l := regionTag.getStartOffset - o
      if l > 0 then
        let l := if l > endOffset - o then endOffset - o else l
        let result := result ++ [⟨o, l, Tag.new T⟩]
        let o := o + (l + regionTag.getLength)
        if o ≥ endOffset then (o, result)
        else addTagsWhereAbsentLoop T endOffset rest o result
      else addTagsWhereAbsentLoop T endOffset rest o result
    else addTagsWhereAbsentLoop T endOffset rest o result

/-- The method `addTagsWhereAbsent<T>(b offset, b length)`: the returned vector and the store. -/
def addTagsWhereAbsent (s : RegionTagSet) (T : Nat) (offset length : Int) :
    List RegionTag × RegionTagSet :=
  let s₁ := s.splitTags T offset
  let s₂ := s₁.splitTags T (offset + length)
  let endOffset := offset + length
  match s₂.regionTags with
  | none => ([], s₂)
  | some v =>
    let (o, result) := addTagsWhereAbsentLoop T endOffset v offset []
    let l := endOffset - o
    let result := if l > 0 then result ++ [⟨o, l, Tag.new T⟩] else result
    (result, ⟨some (sortRegionTags
      (v ++ result.map fun r => ⟨r.getOffset, r.getLength, r.getTag.dup⟩))⟩)

/-- The method `removeTag<T>(b offset, b length)`. -/
def removeTagT (s : RegionTagSet) (T : Nat) (offset length : Int) :
    Except Error TagPointer × RegionTagSet :=
  match s.getTagIndex T offset length with
  | .error e => (.error e, s)
  | .ok index =>
    if index = -1 then (.error .tagAbsent, s)
    else s.removeTag index

/-- The method `removeTagIfPresent<T>(b offset, b length)`; `none` is `nullptr`. -/
def removeTagIfPresent (s : RegionTagSet) (T : Nat) (offset length : Int) :
    Except Error (Option TagPointer) × RegionTagSet :=
  match s.getTagIndex T offset length with
  | .error e => (.error e, s)
  | .ok index =>
    if index = -1 then (.ok none, s)
    else
      match s.removeTag index with
      | (.error e, s₁) => (.error e, s₁)
      | (.ok tag, s₁) => (.ok (some tag), s₁)

/-- The method `mapAllTags<T>(offset, length, f) const`: the calls of `f`, in order. -/
def mapAllTagsT (s : RegionTagSet) (T : Nat) (offset length : Int) :
    Except Error (List RegionTag) :=
  (s.mapAllTags offset length).map (List.filter fun r => r.tag.typeId = T)

/-- The non-const method `mapAllTags<T>(offset, length, f)`: the calls of `f`, in order, and the
store after the two `splitTags` calls. -/
def mapAllTagsMutT (s : RegionTagSet) (T : Nat) (offset length : Int) :
    Except Error (List RegionTag) × RegionTagSet :=
  let s₁ := s.splitTags T offset
  let s₂ := s₁.splitTags T (offset + length)
  ((s₂.mapAllTags offset length).map (List.filter fun r => r.tag.typeId = T), s₂)

/-- The method `getAllTags<T>(b offset, b length) const`. -/
def getAllTagsT (s : RegionTagSet) (T : Nat) (offset length : Int) :
    Except Error (List RegionTag) :=
  (s.mapAllTagsT T offset length).map (List.map fun r => ⟨r.offset, r.length, r.tag.dup⟩)

/-- The method `removeTagsWherePresent<T>(b offset, b length)`: the returned vector and the
store. -/
def removeTagsWherePresent (s : RegionTagSet) (T : Nat) (offset length : Int) :
    Except Error (List RegionTag × RegionTagSet) :=
  match s.getAllTagsT T offset length with
  | .error e => .error e
  | .ok result =>
    match s.clearTags offset length with
    | .error e => .error e
    | .ok s₁ => .ok (result, s₁)

/-- Invariant I1: the vector is in non-decreasing order of offset. -/
def Sorted (s : RegionTagSet) : Prop := s.tags.Sorted RegionTag.le

instance (s : RegionTagSet) : Decidable s.Sorted := inferInstanceAs (Decidable (List.Sorted _ _))

end RegionTagSet

/-- The stored interval and the range `[offset, offset + length)` are not skipped by the
no-intersection test of `mapAllTags`, `clearTags` and `getTagIndex`. -/
def RegionTag.intersects (r : RegionTag) (offset length : Int) : Prop :=
  r.getStartOffset < offset + length ∧ offset < r.getEndOffset

instance (r : RegionTag) (offset length : Int) : Decidable (r.intersects offset length) :=
  inferInstanceAs (Decidable (_ ∧ _))

/-- The stored interval strictly contains the range on both sides: the splitting branch. -/
def RegionTag.strictlyContains (r : RegionTag) (offset length : Int) : Prop :=
  r.getStartOffset < offset ∧ offset + length < r.getEndOffset

instance (r : RegionTag) (offset length : Int) : Decidable (r.strictlyContains offset length) :=
  inferInstanceAs (Decidable (_ ∧ _))


/-- The set intersection of the stored interval with the range `[offset, offset + length)`, with
the interval's tag, when the two intersect: `[max s offset, min e (offset + length))`. -/
def RegionTag.intersection (r : RegionTag) (offset length : Int) : Option RegionTag :=
  if r.intersects offset length then
    some ⟨max r.getStartOffset offset,
      min r.getEndOffset (offset + length) - max r.getStartOffset offset, r.getTag⟩
  else none

namespace RegionTagSet

/-- What one pass of the `clearTags` loop body leaves of a region that does not take the splitting
branch: `none` when it is erased. -/
def clearStep (clearStartOffset clearEndOffset : Int) (regionTag : RegionTag) : Option RegionTag :=
  if clearEndOffset ≤ regionTag.getStartOffset ∨ regionTag.getEndOffset ≤ clearStartOffset then
    some regionTag
  else if clearStartOffset ≤ regionTag.getStartOffset
      ∧ regionTag.getEndOffset ≤ clearEndOffset then
    none
  else if regionTag.getEndOffset ≤ clearEndOffset then
    some (regionTag.setLength (clearStartOffset - regionTag.getStartOffset))
  else
    some ((regionTag.setLength (regionTag.getEndOffset - clearEndOffset)).setOffset clearEndOffset)

/-- The loop body of `clearTags` takes the splitting branch on this region. -/
def takesSplit (clearStartOffset clearEndOffset : Int) (regionTag : RegionTag) : Prop :=
  ¬ (clearEndOffset ≤ regionTag.getStartOffset ∨ regionTag.getEndOffset ≤ clearStartOffset)
    ∧ regionTag.getStartOffset < clearStartOffset ∧ clearEndOffset < regionTag.getEndOffset

/-- The method `getRegionTag(int index) const`: `regionTags->at(index)`, the checked access. -/
def getRegionTag (s : RegionTagSet) (index : Int) : Except Error RegionTag :=
  match s.regionTags with
  | none => .error .undefinedBehavior
  | some v =>
    if index < 0 then .error .indexOutOfRange
    else
      match v[index.toNat]? with
      | none => .error .indexOutOfRange
      | some regionTag => .ok regionTag

/-- The method `getTag(int index) const`. -/
def getTag (s : RegionTagSet) (index : Int) : Except Error Tag :=
  (s.getRegionTag index).map fun regionTag => regionTag.getTag

/-- The store with every region whose tag type is not `T` removed. -/
def restrictToType (s : RegionTagSet) (T : Nat) : RegionTagSet :=
  ⟨s.regionTags.map (List.filter fun r => r.tag.typeId = T)⟩

/-- The coordinate `p` lies in the range `[start, end)` of the region. -/
def covers (r : RegionTag) (p : Int) : Prop := r.getStartOffset ≤ p ∧ p < r.getEndOffset

instance (r : RegionTag) (p : Int) : Decidable (covers r p) :=
  inferInstanceAs (Decidable (_ ∧ _))

/-- The ranges of two regions are disjoint, by the no-intersection test of the source, or have
exactly the same offset and length. -/
def disjointOrEqual (a b : RegionTag) : Prop :=
  a.getEndOffset ≤ b.getStartOffset ∨ b.getEndOffset ≤ a.getStartOffset
    ∨ (a.offset = b.offset ∧ a.length = b.length)

instance (a b : RegionTag) : Decidable (disjointOrEqual a b) :=
  inferInstanceAs (Decidable (_ ∨ _ ∨ _))

/-- Invariant I2: any two stored regions whose tags have the same type are disjoint or have
exactly the same range. -/
def SameTypeDisjoint (s : RegionTagSet) : Prop :=
  s.tags.Pairwise fun a b => a.tag.typeId = b.tag.typeId → disjointOrEqual a b

instance (s : RegionTagSet) : Decidable s.SameTypeDisjoint :=
  inferInstanceAs (Decidable (List.Pairwise _ _))

theorem updateSlot_append_cons (done : List RegionTag) (r : RegionTag) (rest : List RegionTag)
    (f : RegionTag → RegionTag) :
    updateSlot (done ++ r :: rest) done.length f = done ++ f r :: rest := by
  induction done with
  | nil => simp [updateSlot]
  | cons a done ih =>
    simp only [updateSlot] at ih
    simp [updateSlot, ih]

theorem getElem?_append_cons_length (done : List RegionTag) (r : RegionTag)
    (rest : List RegionTag) : (done ++ r :: rest)[done.length]? = some r := by
  rw [List.getElem?_append_right (Nat.le_refl _)]
  simp

theorem eraseIdx_append_cons_length (done : List RegionTag) (r : RegionTag)
    (rest : List RegionTag) : (done ++ r :: rest).eraseIdx done.length = done ++ rest := by
  induction done with
  | nil => simp
  | cons a done ih => simp [ih]

theorem insertIdx_append_cons_length (done : List RegionTag) (x r : RegionTag)
    (rest : List RegionTag) :
    (done ++ r :: rest).insertIdx done.length x = done ++ x :: r :: rest := by
  induction done with
  | nil => simp
  | cons a done ih => simp [ih]

/-- A run of the `clearTags` loop that never meets a region taking the splitting branch finishes
within one step per remaining region plus one, and leaves `clearStep` of every region. -/
theorem clearTagsLoop_eq_filterMap (cs ce : Int) :
    ∀ (fuel : Nat) (done rest : List RegionTag),
      (∀ r ∈ rest, ¬ takesSplit cs ce r) → rest.length < fuel →
      clearTagsLoop cs ce fuel done.length (done ++ rest)
        = .ok (done ++ rest.filterMap (clearStep cs ce)) := by
  intro fuel
  induction fuel with
  | zero => intro _ rest _ h; omega
  | succ fuel ih =>
    intro done rest hns hlen
    cases rest with
    | nil => simp [clearTagsLoop]
    | cons r rest =>
      have hr : ¬ takesSplit cs ce r := hns r (List.mem_cons_self _ _)
      have hrest : ∀ x ∈ rest, ¬ takesSplit cs ce x := fun x hx => hns x (List.mem_cons_of_mem _ hx)
      have hl : rest.length < fuel := by simpa using hlen
      have step : ∀ x : RegionTag, clearTagsLoop cs ce fuel (done.length + 1) (done ++ x :: rest)
          = .ok (done ++ x :: rest.filterMap (clearStep cs ce)) := by
        intro x
        have := ih (done ++ [x]) rest hrest hl
        simpa using this
      rw [clearTagsLoop, getElem?_append_cons_length]
      simp only
      by_cases h1 : ce ≤ r.getStartOffset ∨ r.getEndOffset ≤ cs
      · have hstep : clearStep cs ce r = some r := by
          unfold clearStep; rw [if_pos h1]
        rw [if_pos h1, step r, List.filterMap_cons, hstep]
      · rw [if_neg h1]
        by_cases h2 : cs ≤ r.getStartOffset ∧ r.getEndOffset ≤ ce
        · have hstep : clearStep cs ce r = none := by
            unfold clearStep; rw [if_neg h1, if_pos h2]
          rw [if_pos h2, eraseIdx_append_cons_length, ih done rest hrest hl,
            List.filterMap_cons, hstep]
        · rw [if_neg h2]
          have h3 : ¬ (r.getStartOffset < cs ∧ ce < r.getEndOffset) := fun h => hr ⟨h1, h⟩
          rw [if_neg h3]
          by_cases h4 : r.getEndOffset ≤ ce
          · have hstep : clearStep cs ce r = some (r.setLength (cs - r.getStartOffset)) := by
              unfold clearStep; rw [if_neg h1, if_neg h2, if_pos h4]
            rw [if_pos h4, updateSlot_append_cons, step, List.filterMap_cons, hstep]
          · rw [if_neg h4]
            have h5 : cs ≤ r.getStartOffset := by omega
            rw [if_pos h5]
            have hstep : clearStep cs ce r
                = some ((r.setLength (r.getEndOffset - ce)).setOffset ce) := by
              unfold clearStep; rw [if_neg h1, if_neg h2, if_neg h4]
            simp only [updateSlot_append_cons]
            rw [step, List.filterMap_cons, hstep]

/-- A run of the `clearTags` loop with a region ahead that takes the splitting branch is still
running after any number of steps. -/
theorem clearTagsLoop_diverges (cs ce : Int) :
    ∀ (fuel : Nat) (done rest : List RegionTag),
      (∃ r ∈ rest, takesSplit cs ce r) →
      clearTagsLoop cs ce fuel done.length (done ++ rest) = .error .nonTermination := by
  intro fuel
  induction fuel with
  | zero => intro _ _ _; rfl
  | succ fuel ih =>
    intro done rest hs
    cases rest with
    | nil => simp at hs
    | cons r rest =>
      have step : ∀ (x : RegionTag) (tl : List RegionTag), (∃ y ∈ tl, takesSplit cs ce y) →
          clearTagsLoop cs ce fuel (done.length + 1) (done ++ x :: tl)
            = .error .nonTermination := by
        intro x tl htl
        have := ih (done ++ [x]) tl htl
        simpa using this
      rw [clearTagsLoop, getElem?_append_cons_length]
      simp only
      by_cases hr : takesSplit cs ce r
      · have h1 := hr.1
        have h3 := hr.2
        have h2 : ¬ (cs ≤ r.getStartOffset ∧ r.getEndOffset ≤ ce) := by omega
        rw [if_neg h1, if_neg h2, if_pos h3]
        simp only [insertIdx_append_cons_length, updateSlot_append_cons]
        exact step _ _ ⟨r, List.mem_cons_self _ _, hr⟩
      · have hrest : ∃ y ∈ rest, takesSplit cs ce y := by
          obtain ⟨y, hy, hys⟩ := hs
          rcases List.mem_cons.1 hy with rfl | hy
          · exact absurd hys hr
          · exact ⟨y, hy, hys⟩
        by_cases h1 : ce ≤ r.getStartOffset ∨ r.getEndOffset ≤ cs
        · rw [if_pos h1]; exact step _ _ hrest
        · rw [if_neg h1]
          by_cases h2 : cs ≤ r.getStartOffset ∧ r.getEndOffset ≤ ce
          · rw [if_pos h2, eraseIdx_append_cons_length]; exact ih done rest hrest
          · rw [if_neg h2]
            have h3 : ¬ (r.getStartOffset < cs ∧ ce < r.getEndOffset) := fun h => hr ⟨h1, h⟩
            rw [if_neg h3]
            by_cases h4 : r.getEndOffset ≤ ce
            · rw [if_pos h4, updateSlot_append_cons]; exact step _ _ hrest
            · rw [if_neg h4]
              have h5 : cs ≤ r.getStartOffset := by omega
              rw [if_pos h5]
              simp only [updateSlot_append_cons]
              exact step _ _ hrest

/-- Steps beyond `size + 1` never change what the `clearTags` loop returns. -/
theorem clearTagsLoop_fuel_irrelevant (cs ce : Int) (v : List RegionTag) (fuel : Nat)
    (h : v.length + 1 ≤ fuel) :
    clearTagsLoop cs ce fuel 0 v = clearTagsLoop cs ce (v.length + 1) 0 v := by
  by_cases hs : ∃ r ∈ v, takesSplit cs ce r
  · have h1 := clearTagsLoop_diverges cs ce fuel [] v hs
    have h2 := clearTagsLoop_diverges cs ce (v.length + 1) [] v hs
    simp only [List.length_nil, List.nil_append] at h1 h2
    rw [h1, h2]
  · have hn : ∀ r ∈ v, ¬ takesSplit cs ce r := fun r hr ht => hs ⟨r, hr, ht⟩
    have h1 := clearTagsLoop_eq_filterMap cs ce fuel [] v hn (by omega)
    have h2 := clearTagsLoop_eq_filterMap cs ce (v.length + 1) [] v hn (by omega)
    simp only [List.length_nil, List.nil_append] at h1 h2
    rw [h1, h2]

theorem tags_mk_some (v : List RegionTag) : (RegionTagSet.mk (some v)).tags = v := rfl

theorem tags_mk_none : (RegionTagSet.mk none).tags = [] := rfl

theorem sorted_sortRegionTags (v : List RegionTag) : (sortRegionTags v).Sorted RegionTag.le :=
  List.sorted_insertionSort RegionTag.le v

theorem perm_sortRegionTags (v : List RegionTag) : (sortRegionTags v).Perm v :=
  List.perm_insertionSort RegionTag.le v

theorem sorted_addTag (s : RegionTagSet) (offset length : Int) (tag : Tag) :
    (s.addTag offset length tag).Sorted :=
  sorted_sortRegionTags _

/-- On a sorted vector of regions of positive length none of which takes the splitting branch,
the regions the `clearTags` loop leaves are again in order of offset. -/
theorem sorted_filterMap_clearStep (cs ce : Int) (v : List RegionTag)
    (hs : v.Sorted RegionTag.le) (hpos : ∀ r ∈ v, 0 < r.length)
    (hns : ∀ r ∈ v, ¬ takesSplit cs ce r) :
    (v.filterMap (clearStep cs ce)).Sorted RegionTag.le := by
  have hp : v.Pairwise (fun a b => a.offset ≤ b.offset ∧ (0 < a.length ∧ ¬ takesSplit cs ce a)
      ∧ (0 < b.length ∧ ¬ takesSplit cs ce b)) := by
    have h0 : v.Pairwise RegionTag.le := hs
    exact h0.imp_of_mem fun ha hb hab => ⟨hab, ⟨hpos _ ha, hns _ ha⟩, ⟨hpos _ hb, hns _ hb⟩⟩
  refine List.Pairwise.filterMap (clearStep cs ce) ?_ hp
  intro a a' hab b hb b' hb'
  obtain ⟨h1, ⟨h2, h4⟩, ⟨h3, h5⟩⟩ := hab
  simp only [clearStep, takesSplit, RegionTag.getStartOffset, RegionTag.getEndOffset,
    RegionTag.setLength, RegionTag.setOffset, Option.mem_def] at hb hb' h4 h5
  simp only [RegionTag.le]
  split_ifs at hb hb' <;> simp only [Option.some.injEq, reduceCtorEq] at hb hb' <;>
    subst hb <;> subst hb' <;> (try dsimp only) <;> omega

theorem clearTags_of_noSplit (s : RegionTagSet) (offset length : Int)
    (h : ∀ r ∈ s.tags, ¬ takesSplit offset (offset + length) r) :
    s.clearTags offset length
      = .ok ⟨s.regionTags.map (List.filterMap (clearStep offset (offset + length)))⟩ := by
  obtain ⟨_ | v⟩ := s
  · rfl
  · have := clearTagsLoop_eq_filterMap offset (offset + length) (v.length + 1) [] v h
      (Nat.lt_succ_self _)
    simp only [List.length_nil, List.nil_append] at this
    simp [clearTags, this, Except.map]

theorem clearTags_of_split (s : RegionTagSet) (offset length : Int)
    (h : ∃ r ∈ s.tags, takesSplit offset (offset + length) r) :
    s.clearTags offset length = .error .nonTermination := by
  obtain ⟨_ | v⟩ := s
  · simp [tags] at h
  · have := clearTagsLoop_diverges offset (offset + length) (v.length + 1) [] v h
    simp only [List.length_nil, List.nil_append] at this
    simp [clearTags, this, Except.map]

theorem not_takesSplit_of_not_strictlyContains (r : RegionTag) (offset length : Int)
    (h : ¬ r.strictlyContains offset length) : ¬ takesSplit offset (offset + length) r :=
  fun hs => h hs.2

theorem clearTags_ok_iff (s : RegionTagSet) (offset length : Int) (s' : RegionTagSet) :
    s.clearTags offset length = .ok s' ↔
      (∀ r ∈ s.tags, ¬ takesSplit offset (offset + length) r)
        ∧ s' = ⟨s.regionTags.map (List.filterMap (clearStep offset (offset + length)))⟩ := by
  by_cases h : ∀ r ∈ s.tags, ¬ takesSplit offset (offset + length) r
  · rw [clearTags_of_noSplit s offset length h]
    constructor
    · intro he; injection he with he; exact ⟨h, he.symm⟩
    · rintro ⟨_, rfl⟩; rfl
  · have h' : ∃ r ∈ s.tags, takesSplit offset (offset + length) r := by
      push_neg at h; exact h
    rw [clearTags_of_split s offset length h']
    constructor
    · intro he; cases he
    · rintro ⟨hn, _⟩; exact absurd hn h

/-- The loop of `mapAllTags` reports the intersection of every intersecting region, in order,
and never reaches its `ASSERT(false)`. -/
theorem mapAllTagsLoop_eq (offset length : Int) (v : List RegionTag) :
    mapAllTagsLoop offset (offset + length) v
      = .ok (v.filterMap fun r => r.intersection offset length) := by
  induction v with
  | nil => rfl
  | cons r v ih =>
    rw [mapAllTagsLoop, ih, List.filterMap_cons]
    simp only [RegionTag.intersection, RegionTag.intersects, RegionTag.getStartOffset,
      RegionTag.getEndOffset, RegionTag.getOffset, RegionTag.getLength, RegionTag.getTag,
      Except.map]
    by_cases h1 : offset + length ≤ r.offset ∨ r.offset + r.length ≤ offset
    · have hi : ¬ (r.offset < offset + length ∧ offset < r.offset + r.length) := by omega
      rw [if_pos h1, if_neg hi]
    · have hi : r.offset < offset + length ∧ offset < r.offset + r.length := by omega
      rw [if_neg h1, if_pos hi]
      by_cases h2 : offset ≤ r.offset ∧ r.offset + r.length ≤ offset + length
      · rw [if_pos h2]
        have e1 : max r.offset offset = r.offset := by omega
        have e2 : min (r.offset + r.length) (offset + length) = r.offset + r.length := by omega
        rw [e1, e2]
        congr 3
        omega
      · rw [if_neg h2]
        by_cases h3 : r.offset < offset ∧ offset + length < r.offset + r.length
        · rw [if_pos h3]
          have e1 : max r.offset offset = offset := by omega
          have e2 : min (r.offset + r.length) (offset + length) = offset + length := by omega
          rw [e1, e2]
        · rw [if_neg h3]
          by_cases h4 : r.offset + r.length ≤ offset + length
          · rw [if_pos h4]
            have e1 : max r.offset offset = offset := by omega
            have e2 : min (r.offset + r.length) (offset + length) = r.offset + r.length := by
              omega
            rw [e1, e2]
          · have h5 : offset ≤ r.offset := by omega
            rw [if_neg h4, if_pos h5]
            have e1 : max r.offset offset = r.offset := by omega
            have e2 : min (r.offset + r.length) (offset + length) = offset + length := by omega
            rw [e1, e2]

theorem mapAllTags_eq (s : RegionTagSet) (offset length : Int) :
    s.mapAllTags offset length = .ok (s.tags.filterMap fun r => r.intersection offset length) := by
  obtain ⟨_ | v⟩ := s
  · rfl
  · exact mapAllTagsLoop_eq offset length v

theorem getAllTags_eq (s : RegionTagSet) (offset length : Int) :
    s.getAllTags offset length = .ok (s.tags.filterMap fun r => r.intersection offset length) := by
  rw [getAllTags, mapAllTags_eq]
  simp [Except.map, Tag.dup]

theorem sorted_moveTags (s : RegionTagSet) (hs : s.Sorted) (shift : Int) :
    (s.moveTags shift).Sorted := by
  obtain ⟨_ | v⟩ := s
  · exact hs
  · have h0 : v.Pairwise RegionTag.le := hs
    refine List.Pairwise.map _ ?_ h0
    intro a b hab
    simp only [RegionTag.le, RegionTag.setOffset, RegionTag.getOffset] at hab ⊢
    omega

theorem sorted_splitTags (s : RegionTagSet) (hs : s.Sorted) (T : Nat) (offset : Int) :
    (s.splitTags T offset).Sorted := by
  obtain ⟨_ | v⟩ := s
  · exact hs
  · exact sorted_sortRegionTags _

theorem sorted_addTagT (s : RegionTagSet) (hs : s.Sorted) (T : Nat) (offset length : Int) :
    (s.addTagT T offset length).2.Sorted := by
  unfold addTagT
  split
  · exact hs
  · split
    · exact hs
    · exact sorted_addTag _ _ _ _

theorem sorted_addTagIfAbsent (s : RegionTagSet) (hs : s.Sorted) (T : Nat)
    (offset length : Int) : (s.addTagIfAbsent T offset length).2.Sorted := by
  unfold addTagIfAbsent
  split
  · exact hs
  · exact hs
  · exact sorted_addTag _ _ _ _

theorem sorted_addTagsWhereAbsent (s : RegionTagSet) (hs : s.Sorted) (T : Nat)
    (offset length : Int) : (s.addTagsWhereAbsent T offset length).2.Sorted := by
  have h2 : ((s.splitTags T offset).splitTags T (offset + length)).Sorted :=
    sorted_splitTags _ (sorted_splitTags _ hs _ _) _ _
  unfold addTagsWhereAbsent
  simp only
  split
  · exact h2
  · exact sorted_sortRegionTags _

theorem sorted_removeTag (s : RegionTagSet) (hs : s.Sorted) (index : Int) :
    (s.removeTag index).2.Sorted := by
  unfold removeTag
  split
  · exact hs
  · rename_i v hv
    split
    · exact hs
    · split
      · exact hs
      · have h0 : v.Pairwise RegionTag.le := by
          have := hs
          simp only [Sorted, tags, hv] at this
          exact this
        exact List.Pairwise.sublist (List.eraseIdx_sublist _ _) h0

theorem sorted_removeTagT (s : RegionTagSet) (hs : s.Sorted) (T : Nat) (offset length : Int) :
    (s.removeTagT T offset length).2.Sorted := by
  unfold removeTagT
  split
  · exact hs
  · split
    · exact hs
    · exact sorted_removeTag s hs _

theorem sorted_removeTagIfPresent (s : RegionTagSet) (hs : s.Sorted) (T : Nat)
    (offset length : Int) : (s.removeTagIfPresent T offset length).2.Sorted := by
  unfold removeTagIfPresent
  split
  · exact hs
  · split
    · exact hs
    · have h := sorted_removeTag s hs
      split <;> rename_i heq <;> have := h ‹Int› <;> rw [heq] at this <;> exact this

theorem sorted_clearTags (s : RegionTagSet) (hs : s.Sorted) (hpos : ∀ r ∈ s.tags, 0 < r.length)
    (offset length : Int) (s' : RegionTagSet) (h : s.clearTags offset length = .ok s') :
    s'.Sorted := by
  obtain ⟨hns, rfl⟩ := (clearTags_ok_iff s offset length s').1 h
  obtain ⟨_ | v⟩ := s
  · exact hs
  · exact sorted_filterMap_clearStep _ _ v hs hpos hns

theorem sorted_foldl_addTag (f : RegionTag → Int × Int × Tag) (l : List RegionTag) :
    ∀ s : RegionTagSet, s.Sorted →
      (l.foldl (fun acc r => acc.addTag (f r).1 (f r).2.1 (f r).2.2) s).Sorted := by
  induction l with
  | nil => intro s hs; exact hs
  | cons r l ih => intro s _; exact ih _ (sorted_addTag _ _ _ _)

theorem sorted_ensureAllocated (s : RegionTagSet) (hs : s.Sorted) : s.ensureAllocated.Sorted := by
  obtain ⟨_ | v⟩ := s
  · exact List.sorted_nil
  · exact hs

theorem copyTagsFrom_eq (sourceOf : RegionTagSet → RegionTagSet) (s s₁ : RegionTagSet)
    (sourceOffset offset length : Int) (h : s.clearTags offset length = .ok s₁) :
    copyTagsFrom sourceOf s sourceOffset offset length
      = .ok (((sourceOf s₁.ensureAllocated).tags.filterMap
          fun r => r.intersection sourceOffset length).foldl
        (fun acc r => acc.addTag (r.offset + (offset - sourceOffset)) r.length r.tag)
        s₁.ensureAllocated) := by
  unfold copyTagsFrom
  rw [h]
  simp only [getAllTags_eq]
  rfl

theorem copyTagsFrom_error (sourceOf : RegionTagSet → RegionTagSet) (s : RegionTagSet)
    (sourceOffset offset length : Int) (e : Error) (h : s.clearTags offset length = .error e) :
    copyTagsFrom sourceOf s sourceOffset offset length = .error e := by
  unfold copyTagsFrom
  rw [h]

theorem sorted_copyTagsFrom (sourceOf : RegionTagSet → RegionTagSet) (s : RegionTagSet)
    (hs : s.Sorted) (hpos : ∀ r ∈ s.tags, 0 < r.length)
    (sourceOffset offset length : Int) (s' : RegionTagSet)
    (h : copyTagsFrom sourceOf s sourceOffset offset length = .ok s') : s'.Sorted := by
  cases hc : s.clearTags offset length with
  | error e => rw [copyTagsFrom_error _ _ _ _ _ e hc] at h; cases h
  | ok s₁ =>
    rw [copyTagsFrom_eq _ _ s₁ _ _ _ hc] at h
    injection h with h
    subst h
    exact sorted_foldl_addTag (fun r => (r.offset + (offset - sourceOffset), r.length, r.tag)) _ _
      (sorted_ensureAllocated _ (sorted_clearTags s hs hpos offset length s₁ hc))

theorem getAllTagsT_eq (s : RegionTagSet) (T : Nat) (offset length : Int) :
    s.getAllTagsT T offset length
      = .ok ((s.tags.filterMap fun r => r.intersection offset length).filter
          fun r => r.tag.typeId = T) := by
  rw [getAllTagsT, mapAllTagsT, mapAllTags_eq]
  simp [Except.map, Tag.dup]

theorem removeTagsWherePresent_eq (s : RegionTagSet) (T : Nat) (offset length : Int) :
    s.removeTagsWherePresent T offset length
      = (s.clearTags offset length).map fun s₁ =>
          (((s.tags.filterMap fun r => r.intersection offset length).filter
            fun r => r.tag.typeId = T), s₁) := by
  unfold removeTagsWherePresent
  rw [getAllTagsT_eq]
  cases s.clearTags offset length <;> rfl

/-- C1 fails on the code: `clearTags` moves the start offset of a region whose beginning it cuts
and, unlike `addTag`, `splitTags` and `addTagsWhereAbsent`, never re-sorts. First run:
`add<T0>(0, 20)` and `add<T1>(0, 0)` give the sorted `[(0, 20), (0, 0)]`, and `clear(0, 5)`
returns `[(5, 15), (0, 0)]`. Second run, with positive lengths in every call: `add<T0>(5, 10)`,
`add<T1>(0, 20)` and the mutating `mapAllTags<T0>(5, 10)` (whose `splitTags(5)` leaves the empty
region `(5, 0)`) give the sorted `[(0, 5), (5, 10), (5, 0)]`, and `clear(5, 3)` returns
`[(0, 5), (8, 7), (5, 0)]`. Neither result is in order of offset. -/
theorem sortedness_not_preserved_by_clearTags :
    ((empty.addTagT 0 0 20).2.addTagT 1 0 0).2
        = ⟨some [⟨0, 20, Tag.new 0⟩, ⟨0, 0, Tag.new 1⟩]⟩
      ∧ (RegionTagSet.mk (some [⟨0, 20, Tag.new 0⟩, ⟨0, 0, Tag.new 1⟩])).Sorted
      ∧ (RegionTagSet.mk (some [⟨0, 20, Tag.new 0⟩, ⟨0, 0, Tag.new 1⟩])).clearTags 0 5
          = .ok ⟨some [⟨5, 15, Tag.new 0⟩, ⟨0, 0, Tag.new 1⟩]⟩
      ∧ ¬ (RegionTagSet.mk (some [⟨5, 15, Tag.new 0⟩, ⟨0, 0, Tag.new 1⟩])).Sorted
      ∧ (((empty.addTagT 0 5 10).2.addTagT 1 0 20).2.mapAllTagsMutT 0 5 10).2
          = ⟨some [⟨0, 5, Tag.new 1⟩, ⟨5, 10, Tag.new 0⟩, ⟨5, 0, Tag.new 1⟩]⟩
      ∧ (RegionTagSet.mk (some [⟨0, 5, Tag.new 1⟩, ⟨5, 10, Tag.new 0⟩,
            ⟨5, 0, Tag.new 1⟩])).Sorted
      ∧ (RegionTagSet.mk (some [⟨0, 5, Tag.new 1⟩, ⟨5, 10, Tag.new 0⟩,
            ⟨5, 0, Tag.new 1⟩])).clearTags 5 3
          = .ok ⟨some [⟨0, 5, Tag.new 1⟩, ⟨8, 7, Tag.new 0⟩, ⟨5, 0, Tag.new 1⟩]⟩
      ∧ ¬ (RegionTagSet.mk (some [⟨0, 5, Tag.new 1⟩, ⟨8, 7, Tag.new 0⟩,
            ⟨5, 0, Tag.new 1⟩])).Sorted := by
  decide

/-- Where sortedness does survive. On a store in order of offset, the vector is again in order
of offset after raw insert, shift, align, add, addIfAbsent, addWhereAbsent, remove and
removeIfPresent, whatever the lengths. After clear, copy and removeAllPresent it is in order
whenever the call returns and every stored region had positive length; the call returns when no
stored region strictly contains the cleared range. -/
theorem sortedness_preserved (s : RegionTagSet) (hs : s.Sorted) :
    (∀ offset length tag, (s.addTag offset length tag).Sorted)
    ∧ (∀ shift, (s.moveTags shift).Sorted)
    ∧ (∀ T offset, (s.splitTags T offset).Sorted)
    ∧ (∀ T offset length, (s.addTagT T offset length).2.Sorted)
    ∧ (∀ T offset length, (s.addTagIfAbsent T offset length).2.Sorted)
    ∧ (∀ T offset length, (s.addTagsWhereAbsent T offset length).2.Sorted)
    ∧ (∀ T offset length, (s.removeTagT T offset length).2.Sorted)
    ∧ (∀ T offset length, (s.removeTagIfPresent T offset length).2.Sorted)
    ∧ ((∀ r ∈ s.tags, 0 < r.length) →
        (∀ offset length s', s.clearTags offset length = .ok s' → s'.Sorted)
        ∧ (∀ source sourceOffset offset length s',
            s.copyTags source sourceOffset offset length = .ok s' → s'.Sorted)
        ∧ (∀ T offset length result s',
            s.removeTagsWherePresent T offset length = .ok (result, s') → s'.Sorted))
    ∧ (∀ offset length, (∀ r ∈ s.tags, ¬ r.strictlyContains offset length) →
        (∃ s', s.clearTags offset length = .ok s')
        ∧ (∀ source sourceOffset, ∃ s', s.copyTags source sourceOffset offset length = .ok s')
        ∧ (∀ T, ∃ result s', s.removeTagsWherePresent T offset length = .ok (result, s'))) := by
  have hclear : ∀ offset length, (∀ r ∈ s.tags, ¬ r.strictlyContains offset length) →
      ∃ s', s.clearTags offset length = .ok s' := fun offset length h =>
    ⟨_, clearTags_of_noSplit s offset length
      fun r hr => not_takesSplit_of_not_strictlyContains r offset length (h r hr)⟩
  refine ⟨fun _ _ _ => sorted_addTag _ _ _ _, sorted_moveTags s hs, sorted_splitTags s hs,
    sorted_addTagT s hs, sorted_addTagIfAbsent s hs, sorted_addTagsWhereAbsent s hs,
    sorted_removeTagT s hs, sorted_removeTagIfPresent s hs, ?_, ?_⟩
  · intro hpos
    refine ⟨sorted_clearTags s hs hpos, fun _ => sorted_copyTagsFrom _ s hs hpos, ?_⟩
    intro T offset length result s' h
    rw [removeTagsWherePresent_eq] at h
    cases hc : s.clearTags offset length with
    | error e => rw [hc] at h; cases h
    | ok s₁ =>
      rw [hc] at h
      simp only [Except.map, Except.ok.injEq, Prod.mk.injEq] at h
      rw [← h.2]
      exact sorted_clearTags s hs hpos offset length s₁ hc
  · intro offset length h
    obtain ⟨s₁, hs₁⟩ := hclear offset length h
    refine ⟨⟨s₁, hs₁⟩, fun source sourceOffset =>
      ⟨_, copyTagsFrom_eq _ s s₁ sourceOffset offset length hs₁⟩, fun T => ?_⟩
    rw [removeTagsWherePresent_eq, hs₁]
    exact ⟨_, _, rfl⟩

/-- C2 fails on the code at `clear(10, 20)` of a store holding `[0, 100)` and `[200, 210)`: the
first region strictly contains the range, the loop takes its splitting branch at every step and
is still running after any number of steps, so no cleared store is ever produced. -/
theorem clearTags_strictly_contained_range_diverges :
    (RegionTagSet.mk (some [⟨0, 100, Tag.new 0⟩, ⟨200, 10, Tag.new 1⟩])).clearTags 10 20
        = .error .nonTermination
      ∧ ∀ fuel, clearTagsLoop 10 (10 + 20) fuel 0 [⟨0, 100, Tag.new 0⟩, ⟨200, 10, Tag.new 1⟩]
          = .error .nonTermination :=
  ⟨by decide, fun fuel =>
    clearTagsLoop_diverges 10 (10 + 20) fuel [] _ ⟨⟨0, 100, Tag.new 0⟩, by simp,
      by simp [takesSplit, RegionTag.getStartOffset, RegionTag.getEndOffset]⟩⟩

/-- C3 fails on the code at its own scenario, `T` at `[0, 20)` and `clear(5, 10)`: the first pass
inserts `[0, 5)` at the iterator, overwrites that same slot to offset 15 and length -10, and moves
on to the original `[0, 20)` one slot up; every later pass repeats this, so the call never returns
the two regions `[0, 5)` and `[15, 20)`. -/
theorem clearTags_scenario3_diverges (t : Tag) :
    (∀ fuel, clearTagsLoop 5 15 (fuel + 1) 0 [⟨0, 20, t⟩]
        = clearTagsLoop 5 15 fuel 1 [⟨15, -10, t⟩, ⟨0, 20, t⟩])
      ∧ (∀ fuel, clearTagsLoop 5 15 fuel 0 [⟨0, 20, t⟩] = .error .nonTermination)
      ∧ (RegionTagSet.mk (some [⟨0, 20, t⟩])).clearTags 5 10 = .error .nonTermination := by
  have hsplit : takesSplit 5 15 ⟨0, 20, t⟩ := by
    simp [takesSplit, RegionTag.getStartOffset, RegionTag.getEndOffset]
  refine ⟨fun fuel => ?_, fun fuel => clearTagsLoop_diverges 5 15 fuel [] _ ⟨_, by simp, hsplit⟩,
    clearTags_of_split _ 5 10 ⟨_, by simp [tags], hsplit⟩⟩
  rw [clearTagsLoop]
  simp [RegionTag.getStartOffset, RegionTag.getEndOffset, RegionTag.getTag, Tag.dup, updateSlot,
    RegionTag.setLength, RegionTag.setOffset]

/-- C4: `forEachIntersecting` (raw `mapAllTags`, and `getAllTags`, which materialises the same
traversal) calls `f` exactly once, in vector order, for each stored region that intersects the
range, with the set intersection `[max s offset, min e (offset + length))` and the tag of that
region, and for no other region; the method is `const`, so there is no store after the call other
than the one before it. -/
theorem mapAllTags_reports_intersections (s : RegionTagSet) (offset length : Int) :
    s.mapAllTags offset length
        = .ok (s.tags.filterMap fun r =>
            if r.getStartOffset < offset + length ∧ offset < r.getEndOffset then
              some ⟨max r.getStartOffset offset,
                min r.getEndOffset (offset + length) - max r.getStartOffset offset, r.getTag⟩
            else none)
      ∧ s.getAllTags offset length = s.mapAllTags offset length := by
  refine ⟨mapAllTags_eq s offset length, ?_⟩
  rw [getAllTags_eq, mapAllTags_eq]

theorem exists_first_or_none {α : Type} (p : α → Prop) [DecidablePred p] (v : List α) :
    (∀ x ∈ v, ¬ p x) ∨ ∃ pre r post, v = pre ++ r :: post ∧ (∀ x ∈ pre, ¬ p x) ∧ p r := by
  induction v with
  | nil => left; simp
  | cons a v ih =>
    by_cases ha : p a
    · right; exact ⟨[], a, v, rfl, by simp, ha⟩
    · rcases ih with h | ⟨pre, r, post, rfl, hpre, hr⟩
      · left
        intro x hx
        rcases List.mem_cons.1 hx with rfl | hx
        · exact ha
        · exact h x hx
      · right
        refine ⟨a :: pre, r, post, rfl, ?_, hr⟩
        intro x hx
        rcases List.mem_cons.1 hx with rfl | hx
        · exact ha
        · exact hpre x hx

/-- The scan of `getTagIndex` passes over regions of another type or outside the range. -/
theorem getTagIndexLoop_skip (T : Nat) (offset length : Int) :
    ∀ (pre rest : List RegionTag) (k : Int),
      (∀ x ∈ pre, ¬ (x.tag.typeId = T ∧ x.intersects offset length)) →
      getTagIndexLoop T offset length (pre ++ rest) k
        = getTagIndexLoop T offset length rest (k + pre.length) := by
  intro pre
  induction pre with
  | nil => intro rest k _; simp
  | cons a pre ih =>
    intro rest k h
    have ha := h a (List.mem_cons_self _ _)
    have hc : T ≠ a.getTag.typeId ∨ offset + length ≤ a.getStartOffset
        ∨ a.getEndOffset ≤ offset := by
      simp only [RegionTag.intersects, RegionTag.getStartOffset, RegionTag.getEndOffset,
        RegionTag.getTag] at ha ⊢
      by_cases ht : a.tag.typeId = T
      · right
        have := fun hi => ha ⟨ht, hi⟩
        omega
      · left; exact fun h' => ht h'.symm
    rw [List.cons_append, getTagIndexLoop, if_pos hc,
      ih rest (k + 1) fun x hx => h x (List.mem_cons_of_mem _ hx)]
    congr 1
    simp only [List.length_cons]
    push_cast
    omega

theorem getTagIndexLoop_head (T : Nat) (offset length : Int) (r : RegionTag)
    (post : List RegionTag) (k : Int) (hr : r.tag.typeId = T ∧ r.intersects offset length) :
    getTagIndexLoop T offset length (r :: post) k
      = if r.offset = offset ∧ r.length = length then .ok k else .error .overlappingTag := by
  have hc : ¬ (T ≠ r.getTag.typeId ∨ offset + length ≤ r.getStartOffset
      ∨ r.getEndOffset ≤ offset) := by
    obtain ⟨ht, hi⟩ := hr
    simp only [RegionTag.intersects, RegionTag.getStartOffset, RegionTag.getEndOffset,
      RegionTag.getTag] at hi ⊢
    rintro (h | h)
    · exact h ht.symm
    · omega
  rw [getTagIndexLoop, if_neg hc]
  rfl

theorem regionTags_of_tags_eq (s : RegionTagSet) (pre post : List RegionTag) (r : RegionTag)
    (h : s.tags = pre ++ r :: post) : s = ⟨some (pre ++ r :: post)⟩ := by
  obtain ⟨_ | v⟩ := s
  · simp [tags] at h
  · simp only [tags, Option.getD_some] at h
    rw [h]

/-- Without a region of type `T` intersecting the range, `getTagIndex<T>` returns -1. -/
theorem getTagIndex_of_none (s : RegionTagSet) (T : Nat) (offset length : Int)
    (h : ∀ x ∈ s.tags, ¬ (x.tag.typeId = T ∧ x.intersects offset length)) :
    s.getTagIndex T offset length = .ok (-1) := by
  obtain ⟨_ | v⟩ := s
  · rfl
  · have := getTagIndexLoop_skip T offset length v [] 0 h
    simp only [List.append_nil] at this
    show getTagIndexLoop T offset length v 0 = .ok (-1)
    rw [this]
    rfl

/-- The first region of type `T` intersecting the range decides `getTagIndex<T>`: its position
when it has exactly the offset and length asked for, the overlap error otherwise. -/
theorem getTagIndex_of_first (s : RegionTagSet) (T : Nat) (offset length : Int)
    (pre post : List RegionTag) (r : RegionTag) (h : s.tags = pre ++ r :: post)
    (hpre : ∀ x ∈ pre, ¬ (x.tag.typeId = T ∧ x.intersects offset length))
    (hr : r.tag.typeId = T ∧ r.intersects offset length) :
    s.getTagIndex T offset length
      = if r.offset = offset ∧ r.length = length then .ok (pre.length : Int)
        else .error .overlappingTag := by
  rw [regionTags_of_tags_eq s pre post r h]
  show getTagIndexLoop T offset length (pre ++ r :: post) 0 = _
  rw [getTagIndexLoop_skip T offset length pre (r :: post) 0 hpre,
    getTagIndexLoop_head T offset length r post _ hr]
  simp

theorem elementAt_length (pre post : List RegionTag) (r : RegionTag) :
    (RegionTagSet.mk (some (pre ++ r :: post))).elementAt (pre.length : Int) = .ok r := by
  unfold elementAt
  simp only
  rw [if_neg (by omega), Int.toNat_ofNat, getElem?_append_cons_length]

theorem removeTag_length (pre post : List RegionTag) (r : RegionTag) :
    (RegionTagSet.mk (some (pre ++ r :: post))).removeTag (pre.length : Int)
      = (.ok .dangling, ⟨some (pre ++ post)⟩) := by
  unfold removeTag
  simp only
  rw [if_neg (by omega), Int.toNat_ofNat, getElem?_append_cons_length]
  simp only [eraseIdx_append_cons_length]

theorem getTagIndex_of_first_exact (s : RegionTagSet) (T : Nat) (offset length : Int)
    (pre post : List RegionTag) (r : RegionTag) (h : s.tags = pre ++ r :: post)
    (hpre : ∀ x ∈ pre, ¬ (x.tag.typeId = T ∧ x.intersects offset length))
    (hr : r.tag.typeId = T ∧ r.intersects offset length)
    (hx : r.offset = offset ∧ r.length = length) :
    s.getTagIndex T offset length = .ok (pre.length : Int) := by
  rw [getTagIndex_of_first s T offset length pre post r h hpre hr, if_pos hx]

theorem getTagIndex_of_first_inexact (s : RegionTagSet) (T : Nat) (offset length : Int)
    (pre post : List RegionTag) (r : RegionTag) (h : s.tags = pre ++ r :: post)
    (hpre : ∀ x ∈ pre, ¬ (x.tag.typeId = T ∧ x.intersects offset length))
    (hr : r.tag.typeId = T ∧ r.intersects offset length)
    (hx : ¬ (r.offset = offset ∧ r.length = length)) :
    s.getTagIndex T offset length = .error .overlappingTag := by
  rw [getTagIndex_of_first s T offset length pre post r h hpre hr, if_neg hx]

theorem natCast_ne_neg_one (n : Nat) : ¬ ((n : Int) = -1) := by omega

theorem findTag_of_first_exact (s : RegionTagSet) (T : Nat) (offset length : Int)
    (pre post : List RegionTag) (r : RegionTag) (h : s.tags = pre ++ r :: post)
    (hpre : ∀ x ∈ pre, ¬ (x.tag.typeId = T ∧ x.intersects offset length))
    (hr : r.tag.typeId = T ∧ r.intersects offset length)
    (hx : r.offset = offset ∧ r.length = length) :
    s.findTag T offset length = .ok (some r.tag) := by
  unfold findTag
  rw [getTagIndex_of_first_exact s T offset length pre post r h hpre hr hx]
  simp only
  rw [if_neg (natCast_ne_neg_one _), regionTags_of_tags_eq s pre post r h, elementAt_length]
  rfl

theorem getTagT_of_first_exact (s : RegionTagSet) (T : Nat) (offset length : Int)
    (pre post : List RegionTag) (r : RegionTag) (h : s.tags = pre ++ r :: post)
    (hpre : ∀ x ∈ pre, ¬ (x.tag.typeId = T ∧ x.intersects offset length))
    (hr : r.tag.typeId = T ∧ r.intersects offset length)
    (hx : r.offset = offset ∧ r.length = length) :
    s.getTagT T offset length = .ok r.tag := by
  unfold getTagT
  rw [getTagIndex_of_first_exact s T offset length pre post r h hpre hr hx]
  simp only
  rw [if_neg (natCast_ne_neg_one _), regionTags_of_tags_eq s pre post r h, elementAt_length]
  rfl

theorem addTagT_of_first_exact (s : RegionTagSet) (T : Nat) (offset length : Int)
    (pre post : List RegionTag) (r : RegionTag) (h : s.tags = pre ++ r :: post)
    (hpre : ∀ x ∈ pre, ¬ (x.tag.typeId = T ∧ x.intersects offset length))
    (hr : r.tag.typeId = T ∧ r.intersects offset length)
    (hx : r.offset = offset ∧ r.length = length) :
    s.addTagT T offset length = (.error .tagPresent, s) := by
  unfold addTagT
  rw [getTagIndex_of_first_exact s T offset length pre post r h hpre hr hx]
  simp only
  rw [if_pos (natCast_ne_neg_one _)]

theorem intersects_self (r : RegionTag) (h : 0 < r.length) : r.intersects r.offset r.length := by
  simp only [RegionTag.intersects, RegionTag.getStartOffset, RegionTag.getEndOffset]
  omega

theorem getNumTags_eq (s : RegionTagSet) : s.getNumTags = (s.tags.length : Int) := by
  obtain ⟨_ | v⟩ := s <;> rfl

theorem tags_ensureAllocated (s : RegionTagSet) : s.ensureAllocated.tags = s.tags := by
  obtain ⟨_ | v⟩ := s <;> rfl

theorem tags_addTag_perm (s : RegionTagSet) (offset length : Int) (tag : Tag) :
    (s.addTag offset length tag).tags.Perm (⟨offset, length, tag⟩ :: s.tags) := by
  show (sortRegionTags (s.ensureAllocated.tags ++ [⟨offset, length, tag⟩])).Perm _
  rw [tags_ensureAllocated]
  have h := perm_sortRegionTags (s.tags ++ [⟨offset, length, tag⟩])
  have h2 : (s.tags ++ [(⟨offset, length, tag⟩ : RegionTag)]).Perm
      (⟨offset, length, tag⟩ :: s.tags) := List.perm_append_comm
  exact h.trans h2

theorem findTag_of_none (s : RegionTagSet) (T : Nat) (offset length : Int)
    (h : ∀ x ∈ s.tags, ¬ (x.tag.typeId = T ∧ x.intersects offset length)) :
    s.findTag T offset length = .ok none := by
  unfold findTag
  rw [getTagIndex_of_none s T offset length h]
  rfl

theorem getTagT_of_none (s : RegionTagSet) (T : Nat) (offset length : Int)
    (h : ∀ x ∈ s.tags, ¬ (x.tag.typeId = T ∧ x.intersects offset length)) :
    s.getTagT T offset length = .error .tagAbsent := by
  unfold getTagT
  rw [getTagIndex_of_none s T offset length h]
  rfl

/-- After a raw insertion of a region with a tag of type `T` and positive length over a range
that no stored region of type `T` intersected, the inserted region is the first one of type `T`
in the vector that intersects the range. -/
theorem addTag_tag_first_match (s : RegionTagSet) (T : Nat) (offset length : Int) (t : Tag)
    (ht : t.typeId = T) (hl : 0 < length)
    (hfree : ∀ x ∈ s.tags, ¬ (x.tag.typeId = T ∧ x.intersects offset length)) :
    ∃ pre post, (s.addTag offset length t).tags = pre ++ ⟨offset, length, t⟩ :: post
      ∧ ∀ x ∈ pre, ¬ (x.tag.typeId = T ∧ x.intersects offset length) := by
  have hperm := tags_addTag_perm s offset length t
  have hnew : (⟨offset, length, t⟩ : RegionTag).tag.typeId = T
      ∧ (⟨offset, length, t⟩ : RegionTag).intersects offset length :=
    ⟨ht, intersects_self ⟨offset, length, t⟩ hl⟩
  rcases exists_first_or_none (fun x : RegionTag => x.tag.typeId = T ∧ x.intersects offset length)
      (s.addTag offset length t).tags with hnone | ⟨pre, r, post, hsplit, hpre, hr⟩
  · exact absurd hnew (hnone _ (hperm.mem_iff.2 (List.mem_cons_self _ _)))
  · have hmem : r ∈ (s.addTag offset length t).tags := by
      rw [hsplit]; simp
    have hr' : r = ⟨offset, length, t⟩ := by
      rcases List.mem_cons.1 (hperm.mem_iff.1 hmem) with h | h
      · exact h
      · exact absurd hr (hfree r h)
    rw [hr'] at hsplit
    exact ⟨pre, post, hsplit, hpre⟩

/-- C7: on a store without a region of type `T` intersecting the range, and with positive
length, `get<T>` on the range fails with the tag-absent error before the call, `add<T>` succeeds,
the store afterwards is the store after the raw insertion of the returned tag, it holds the old
regions and one new region with the range and the returned tag (so the count grows by exactly
one), `get<T>` and `find<T>` on the range return the tag that `add<T>` returned, and a second
`add<T>` fails with the tag-present error and changes nothing. What `get<T>` returns is read from
the store: whichever tag `t` of type `T` is inserted on the range, `get<T>` and `find<T>` on the
range then return that `t`. -/
theorem addTagT_on_free_range (s : RegionTagSet) (T : Nat) (offset length : Int)
    (hl : 0 < length)
    (hfree : ∀ r ∈ s.tags, r.tag.typeId = T → ¬ r.intersects offset length) :
    (∃ tag, (s.addTagT T offset length).1 = .ok tag
      ∧ tag.typeId = T
      ∧ (s.addTagT T offset length).2.tags.Perm (⟨offset, length, tag⟩ :: s.tags)
      ∧ (s.addTagT T offset length).2.getNumTags = s.getNumTags + 1
      ∧ (s.addTagT T offset length).2.getTagT T offset length = .ok tag
      ∧ (s.addTagT T offset length).2.addTagT T offset length
          = (.error .tagPresent, (s.addTagT T offset length).2)
      ∧ (s.addTagT T offset length).2 = s.addTag offset length tag
      ∧ (s.addTagT T offset length).2.findTag T offset length = .ok (some tag))
    ∧ s.getTagT T offset length = .error .tagAbsent
    ∧ (∀ t : Tag, t.typeId = T →
        (s.addTag offset length t).getTagT T offset length = .ok t
        ∧ (s.addTag offset length t).findTag T offset length = .ok (some t)
        ∧ (s.addTag offset length t).addTagT T offset length
            = (.error .tagPresent, s.addTag offset length t)) := by
  have hnone : ∀ x ∈ s.tags, ¬ (x.tag.typeId = T ∧ x.intersects offset length) :=
    fun x hx hp => hfree x hx hp.1 hp.2
  have hidx : s.getTagIndex T offset length = .ok (-1) := getTagIndex_of_none s T offset length hnone
  have hadd : s.addTagT T offset length
      = (.ok (Tag.new T), s.addTag offset length (Tag.new T)) := by
    unfold addTagT
    rw [hidx]
    simp
  have hraw : ∀ t : Tag, t.typeId = T →
      (s.addTag offset length t).getTagT T offset length = .ok t
      ∧ (s.addTag offset length t).findTag T offset length = .ok (some t)
      ∧ (s.addTag offset length t).addTagT T offset length
          = (.error .tagPresent, s.addTag offset length t) := by
    intro t ht
    obtain ⟨pre, post, hsplit, hpre⟩ := addTag_tag_first_match s T offset length t ht hl hnone
    have hr : (⟨offset, length, t⟩ : RegionTag).tag.typeId = T
        ∧ (⟨offset, length, t⟩ : RegionTag).intersects offset length :=
      ⟨ht, intersects_self ⟨offset, length, t⟩ hl⟩
    exact ⟨getTagT_of_first_exact _ T offset length pre post _ hsplit hpre hr ⟨rfl, rfl⟩,
      findTag_of_first_exact _ T offset length pre post _ hsplit hpre hr ⟨rfl, rfl⟩,
      addTagT_of_first_exact _ T offset length pre post _ hsplit hpre hr ⟨rfl, rfl⟩⟩
  refine ⟨⟨Tag.new T, ?_⟩, getTagT_of_none s T offset length hnone, hraw⟩
  rw [hadd]
  obtain ⟨h1, h2, h3⟩ := hraw (Tag.new T) rfl
  have hperm := tags_addTag_perm s offset length (Tag.new T)
  refine ⟨rfl, rfl, hperm, ?_, h1, h3, rfl, h2⟩
  rw [getNumTags_eq, getNumTags_eq, hperm.length_eq]
  simp

/-- Instance of `addTagT_on_free_range`: the store holds one region of type 0 at `[20, 25)`
whose tag carries the value 3, and the range is `(0, 10)`. `get<0>(0, 10)` fails before the call;
after `add<0>(0, 10)` it returns the new tag, and after the raw insertion of a tag of type 0 with
the value 7 it returns that tag, not the tag stored at `[20, 25)` and not a fresh one. -/
theorem addTagT_on_free_range_witness :
    (∀ r ∈ (RegionTagSet.mk (some [⟨20, 5, ⟨0, 3⟩⟩])).tags,
        r.tag.typeId = 0 → ¬ r.intersects 0 10)
      ∧ (RegionTagSet.mk (some [⟨20, 5, ⟨0, 3⟩⟩])).getTagT 0 0 10 = .error .tagAbsent
      ∧ ((RegionTagSet.mk (some [⟨20, 5, ⟨0, 3⟩⟩])).addTag 0 10 ⟨0, 7⟩).getTagT 0 0 10
          = .ok ⟨0, 7⟩
      ∧ ((RegionTagSet.mk (some [⟨20, 5, ⟨0, 3⟩⟩])).addTag 0 10 ⟨0, 7⟩).findTag 0 0 10
          = .ok (some ⟨0, 7⟩)
      ∧ ∃ tag, ((RegionTagSet.mk (some [⟨20, 5, ⟨0, 3⟩⟩])).addTagT 0 0 10).1 = .ok tag
        ∧ tag.typeId = 0
        ∧ ((RegionTagSet.mk (some [⟨20, 5, ⟨0, 3⟩⟩])).addTagT 0 0 10).2.tags.Perm
            (⟨0, 10, tag⟩ :: (RegionTagSet.mk (some [⟨20, 5, ⟨0, 3⟩⟩])).tags)
        ∧ ((RegionTagSet.mk (some [⟨20, 5, ⟨0, 3⟩⟩])).addTagT 0 0 10).2.getNumTags
            = (RegionTagSet.mk (some [⟨20, 5, ⟨0, 3⟩⟩])).getNumTags + 1
        ∧ ((RegionTagSet.mk (some [⟨20, 5, ⟨0, 3⟩⟩])).addTagT 0 0 10).2.getTagT 0 0 10
            = .ok tag
        ∧ ((RegionTagSet.mk (some [⟨20, 5, ⟨0, 3⟩⟩])).addTagT 0 0 10).2.addTagT 0 0 10
            = (.error .tagPresent, ((RegionTagSet.mk (some [⟨20, 5, ⟨0, 3⟩⟩])).addTagT 0 0 10).2)
        ∧ ((RegionTagSet.mk (some [⟨20, 5, ⟨0, 3⟩⟩])).addTagT 0 0 10).2
            = (RegionTagSet.mk (some [⟨20, 5, ⟨0, 3⟩⟩])).addTag 0 10 tag
        ∧ ((RegionTagSet.mk (some [⟨20, 5, ⟨0, 3⟩⟩])).addTagT 0 0 10).2.findTag 0 0 10
            = .ok (some tag) :=
  have hfree : ∀ r ∈ (RegionTagSet.mk (some [⟨20, 5, ⟨0, 3⟩⟩])).tags,
      r.tag.typeId = 0 → ¬ r.intersects 0 10 := by decide
  have h := addTagT_on_free_range ⟨some [⟨20, 5, ⟨0, 3⟩⟩]⟩ 0 0 10 (by decide) hfree
  ⟨hfree, h.2.1, (h.2.2 ⟨0, 7⟩ rfl).1, (h.2.2 ⟨0, 7⟩ rfl).2.1, h.1⟩

/-- C8 as stated fails in two ways. After scenario 2 (`add<T>(0, 10)`, raw `insert(5, 10, T)`)
the store holds a region of type `T` at exactly `(5, 10)`, yet `add<T>(5, 10)` fails with the
overlap error, because the scan meets `[0, 10)` first. And after `add<T>(5, 0)` the store holds a
region of type `T` at exactly `(5, 0)`, yet a second `add<T>(5, 0)` succeeds and inserts another
one, because a region of length 0 never passes the intersection test of the scan. -/
theorem addTagT_exact_present_not_tagPresent :
    ((empty.addTagT 0 0 10).2.addTag 5 10 (Tag.new 0)).tags
        = [⟨0, 10, Tag.new 0⟩, ⟨5, 10, Tag.new 0⟩]
      ∧ ((empty.addTagT 0 0 10).2.addTag 5 10 (Tag.new 0)).addTagT 0 5 10
          = (.error .overlappingTag, (empty.addTagT 0 0 10).2.addTag 5 10 (Tag.new 0))
      ∧ (empty.addTagT 0 5 0).2.tags = [⟨5, 0, Tag.new 0⟩]
      ∧ (empty.addTagT 0 5 0).2.addTagT 0 5 0
          = (.ok (Tag.new 0), ⟨some [⟨5, 0, Tag.new 0⟩, ⟨5, 0, Tag.new 0⟩]⟩) := by
  decide

/-- C8, amended: when the store holds a region of type `T` with exactly the offset and length
asked for, the length is positive, and no region of type `T` standing before it in the vector
intersects the range, `add<T>` fails with the tag-present error and leaves the store as it was. -/
theorem addTagT_exact_present (s : RegionTagSet) (T : Nat) (offset length : Int)
    (pre post : List RegionTag) (r : RegionTag) (hl : 0 < length)
    (h : s.tags = pre ++ r :: post)
    (hpre : ∀ x ∈ pre, ¬ (x.tag.typeId = T ∧ x.intersects offset length))
    (hT : r.tag.typeId = T) (hx : r.offset = offset ∧ r.length = length) :
    (s.addTagT T offset length).1 = .error .tagPresent ∧ (s.addTagT T offset length).2 = s := by
  have hi : r.intersects offset length := by
    have := intersects_self r (by rw [hx.2]; exact hl)
    rw [hx.1, hx.2] at this
    exact this
  rw [addTagT_of_first_exact s T offset length pre post r h hpre ⟨hT, hi⟩ hx]
  exact ⟨rfl, rfl⟩

/-- Instance of `addTagT_exact_present`: the store `[(0, 10, T1), (5, 10, T0)]` and
`add<T0>(5, 10)`; the overlapping region before the exact one has another type. -/
theorem addTagT_exact_present_witness :
    ((RegionTagSet.mk (some [⟨0, 10, Tag.new 1⟩, ⟨5, 10, Tag.new 0⟩])).addTagT 0 5 10).1
        = .error .tagPresent
      ∧ ((RegionTagSet.mk (some [⟨0, 10, Tag.new 1⟩, ⟨5, 10, Tag.new 0⟩])).addTagT 0 5 10).2
        = ⟨some [⟨0, 10, Tag.new 1⟩, ⟨5, 10, Tag.new 0⟩]⟩ :=
  addTagT_exact_present ⟨some [⟨0, 10, Tag.new 1⟩, ⟨5, 10, Tag.new 0⟩]⟩ 0 5 10
    [⟨0, 10, Tag.new 1⟩] [] ⟨5, 10, Tag.new 0⟩ (by decide) rfl (by decide) rfl ⟨rfl, rfl⟩

/-- C9 as stated fails: in the store `[(5, 10, T), (6, 10, T)]` the region `[6, 16)` of type `T`
intersects `[5, 15)` without having that offset and length, yet `find<T>(5, 10)` and
`get<T>(5, 10)` return the tag of `[5, 15)`, `add<T>(5, 10)` fails with the tag-present error, and
`remove<T>(5, 10)` and `removeIfPresent<T>(5, 10)` remove `[5, 15)` (and hand back the pointer to
its deleted tag): the scan returns at the exact region before it reaches the overlapping one. -/
theorem typed_ops_exact_before_overlap :
    (RegionTagSet.mk (some [⟨5, 10, Tag.new 0⟩, ⟨6, 10, Tag.new 0⟩])).findTag 0 5 10
        = .ok (some (Tag.new 0))
      ∧ (RegionTagSet.mk (some [⟨5, 10, Tag.new 0⟩, ⟨6, 10, Tag.new 0⟩])).getTagT 0 5 10
        = .ok (Tag.new 0)
      ∧ ((RegionTagSet.mk (some [⟨5, 10, Tag.new 0⟩, ⟨6, 10, Tag.new 0⟩])).addTagT 0 5 10).1
        = .error .tagPresent
      ∧ (RegionTagSet.mk (some [⟨5, 10, Tag.new 0⟩, ⟨6, 10, Tag.new 0⟩])).removeTagT 0 5 10
        = (.ok .dangling, ⟨some [⟨6, 10, Tag.new 0⟩]⟩)
      ∧ (RegionTagSet.mk (some [⟨5, 10, Tag.new 0⟩, ⟨6, 10, Tag.new 0⟩])).removeTagIfPresent 0 5 10
        = (.ok (some .dangling), ⟨some [⟨6, 10, Tag.new 0⟩]⟩) := by
  decide

/-- C9, amended: when the first region of type `T` (in vector order) that intersects the range
does not have exactly the offset and length asked for, `find<T>`, `get<T>`, `add<T>`, `remove<T>`
and `removeIfPresent<T>` all fail with the overlap error, and the store is left as it was. -/
theorem typed_ops_overlap_error (s : RegionTagSet) (T : Nat) (offset length : Int)
    (pre post : List RegionTag) (r : RegionTag) (h : s.tags = pre ++ r :: post)
    (hpre : ∀ x ∈ pre, ¬ (x.tag.typeId = T ∧ x.intersects offset length))
    (hT : r.tag.typeId = T) (hi : r.intersects offset length)
    (hx : ¬ (r.offset = offset ∧ r.length = length)) :
    s.findTag T offset length = .error .overlappingTag
      ∧ s.getTagT T offset length = .error .overlappingTag
      ∧ s.addTagT T offset length = (.error .overlappingTag, s)
      ∧ s.removeTagT T offset length = (.error .overlappingTag, s)
      ∧ s.removeTagIfPresent T offset length = (.error .overlappingTag, s) := by
  have hidx := getTagIndex_of_first_inexact s T offset length pre post r h hpre ⟨hT, hi⟩ hx
  unfold findTag getTagT addTagT removeTagT removeTagIfPresent
  rw [hidx]
  exact ⟨rfl, rfl, rfl, rfl, rfl⟩

/-- Instance of `typed_ops_overlap_error`, scenario 2: `add<T>(0, 10)`, raw `insert(5, 10, T)`,
then the typed operations on `(5, 10)`; the stored `[0, 10)` partially overlaps `[5, 15)`. -/
theorem typed_ops_overlap_error_witness :
    ((empty.addTagT 0 0 10).2.addTag 5 10 (Tag.new 0)).findTag 0 5 10 = .error .overlappingTag
      ∧ ((empty.addTagT 0 0 10).2.addTag 5 10 (Tag.new 0)).getTagT 0 5 10
          = .error .overlappingTag
      ∧ ((empty.addTagT 0 0 10).2.addTag 5 10 (Tag.new 0)).addTagT 0 5 10
          = (.error .overlappingTag, (empty.addTagT 0 0 10).2.addTag 5 10 (Tag.new 0))
      ∧ ((empty.addTagT 0 0 10).2.addTag 5 10 (Tag.new 0)).removeTagT 0 5 10
          = (.error .overlappingTag, (empty.addTagT 0 0 10).2.addTag 5 10 (Tag.new 0))
      ∧ ((empty.addTagT 0 0 10).2.addTag 5 10 (Tag.new 0)).removeTagIfPresent 0 5 10
          = (.error .overlappingTag, (empty.addTagT 0 0 10).2.addTag 5 10 (Tag.new 0)) :=
  typed_ops_overlap_error ((empty.addTagT 0 0 10).2.addTag 5 10 (Tag.new 0)) 0 5 10
    [] [⟨5, 10, Tag.new 0⟩] ⟨0, 10, Tag.new 0⟩ (by decide) (by simp) rfl (by decide) (by decide)

/-- C10 as stated fails: after scenario 2 (`add<T>(0, 10)`, raw `insert(5, 10, T)`),
`find<T>(5, 10)` raises the overlap error thrown by `getTagIndex`. -/
theorem findTag_raises_overlap :
    ((empty.addTagT 0 0 10).2.addTag 5 10 (Tag.new 0)).findTag 0 5 10
      = .error .overlappingTag := by
  decide

/-- C10, amended: `find<T>` has exactly three outcomes. It returns absent when no stored region of
type `T` intersects the range; it returns the tag of a stored region of type `T` with exactly the
offset and length asked for; or it fails with the overlap error, and then a stored region of type
`T` intersects the range without having that offset and length. It never fails in another way. -/
theorem findTag_outcomes (s : RegionTagSet) (T : Nat) (offset length : Int) :
    (s.findTag T offset length = .ok none
        ∧ ∀ r ∈ s.tags, ¬ (r.tag.typeId = T ∧ r.intersects offset length))
      ∨ (∃ r ∈ s.tags, r.tag.typeId = T ∧ r.offset = offset ∧ r.length = length
          ∧ s.findTag T offset length = .ok (some r.tag))
      ∨ (s.findTag T offset length = .error .overlappingTag
          ∧ ∃ r ∈ s.tags, r.tag.typeId = T ∧ r.intersects offset length
              ∧ ¬ (r.offset = offset ∧ r.length = length)) := by
  rcases exists_first_or_none (fun x : RegionTag => x.tag.typeId = T ∧ x.intersects offset length)
      s.tags with hnone | ⟨pre, r, post, hsplit, hpre, hr⟩
  · left
    refine ⟨?_, hnone⟩
    unfold findTag
    rw [getTagIndex_of_none s T offset length hnone]
    rfl
  · have hmem : r ∈ s.tags := by rw [hsplit]; simp
    by_cases hx : r.offset = offset ∧ r.length = length
    · right; left
      exact ⟨r, hmem, hr.1, hx.1, hx.2,
        findTag_of_first_exact s T offset length pre post r hsplit hpre hr hx⟩
    · right; right
      refine ⟨?_, r, hmem, hr.1, hr.2, hx⟩
      unfold findTag
      rw [getTagIndex_of_first_inexact s T offset length pre post r hsplit hpre hr hx]

theorem not_intersects_of_clearStep (offset length : Int) (r x : RegionTag)
    (h : clearStep offset (offset + length) r = some x) : ¬ x.intersects offset length := by
  simp only [clearStep, RegionTag.getStartOffset, RegionTag.getEndOffset, RegionTag.setLength,
    RegionTag.setOffset] at h
  simp only [RegionTag.intersects, RegionTag.getStartOffset, RegionTag.getEndOffset]
  split_ifs at h <;> simp only [Option.some.injEq, reduceCtorEq] at h <;> subst h <;>
    (try dsimp only) <;> omega

theorem tags_map_filterMap (s : RegionTagSet) (f : RegionTag → Option RegionTag) :
    (RegionTagSet.mk (s.regionTags.map (List.filterMap f))).tags = s.tags.filterMap f := by
  obtain ⟨_ | v⟩ := s <;> rfl

/-- Whenever `clearTags` returns, no region of the store it leaves intersects the range. -/
theorem not_intersects_of_clearTags (s s' : RegionTagSet) (offset length : Int)
    (h : s.clearTags offset length = .ok s') : ∀ x ∈ s'.tags, ¬ x.intersects offset length := by
  obtain ⟨_, rfl⟩ := (clearTags_ok_iff s offset length s').1 h
  intro x hx
  rw [tags_map_filterMap, List.mem_filterMap] at hx
  obtain ⟨r, _, hr⟩ := hx
  exact not_intersects_of_clearStep offset length r x hr

theorem filterMap_intersection_eq_nil (v : List RegionTag) (offset length : Int)
    (h : ∀ x ∈ v, ¬ x.intersects offset length) :
    (v.filterMap fun r => r.intersection offset length) = [] := by
  rw [List.filterMap_eq_nil_iff]
  intro x hx
  simp only [RegionTag.intersection, if_neg (h x hx)]

/-- Whenever `clearTags` returns, `mapAllTags` over the same range on the store it leaves calls
`f` zero times. -/
theorem mapAllTags_after_clearTags (s s' : RegionTagSet) (offset length : Int)
    (h : s.clearTags offset length = .ok s') : s'.mapAllTags offset length = .ok [] := by
  rw [mapAllTags_eq, filterMap_intersection_eq_nil _ _ _
    (not_intersects_of_clearTags s s' offset length h)]

theorem tags_foldl_addTag_perm (f : RegionTag → RegionTag) (l : List RegionTag) :
    ∀ s : RegionTagSet,
      (l.foldl (fun acc r => acc.addTag (f r).offset (f r).length (f r).tag) s).tags.Perm
        (s.tags ++ l.map f) := by
  induction l with
  | nil => intro s; simp
  | cons r l ih =>
    intro s
    rw [List.foldl_cons]
    refine (ih _).trans ?_
    rw [List.map_cons]
    have h1 := tags_addTag_perm s (f r).offset (f r).length (f r).tag
    have h2 : (s.tags ++ f r :: l.map f).Perm (f r :: s.tags ++ l.map f) := by
      simp
    exact (List.Perm.append_right _ h1).trans h2.symm

theorem intersects_shifted_intersection (r x : RegionTag) (sourceOffset offset length : Int)
    (hl : 0 < length) (h : r.intersection sourceOffset length = some x) :
    (RegionTag.mk (x.offset + (offset - sourceOffset)) x.length x.tag).intersects
      offset length := by
  simp only [RegionTag.intersection, RegionTag.intersects, RegionTag.getStartOffset,
    RegionTag.getEndOffset, RegionTag.getTag] at h ⊢
  split_ifs at h with hc
  simp only [Option.some.injEq] at h
  subst h
  dsimp only
  omega

/-- C5 as stated fails for an empty range: with `T` at `[0, 10)` in the source,
`source.snapshotIntersecting(5, 0)` returns the slice `(5, 0)`, and `copy(source, 5, 100, 0)` into
the empty store inserts `(100, 0)`, but no region of the destination intersects `[100, 100)`:
`forEachIntersecting(100, 0)` reports nothing. -/
theorem copyTags_empty_range_slice_not_intersecting :
    (RegionTagSet.mk (some [⟨0, 10, Tag.new 0⟩])).getAllTags 5 0 = .ok [⟨5, 0, Tag.new 0⟩]
      ∧ empty.copyTags ⟨some [⟨0, 10, Tag.new 0⟩]⟩ 5 100 0 = .ok ⟨some [⟨100, 0, Tag.new 0⟩]⟩
      ∧ (RegionTagSet.mk (some [⟨100, 0, Tag.new 0⟩])).tags.filter
          (fun r => r.intersects 100 0) = []
      ∧ (RegionTagSet.mk (some [⟨100, 0, Tag.new 0⟩])).mapAllTags 100 0 = .ok [] := by
  decide

/-- C5, amended: for a range of positive length that no region of the destination strictly
contains, `dest.copyTags(source, sourceOffset, offset, length)` with `source` another object
returns, and the regions of the destination that intersect `[offset, offset + length)` are then
exactly (as a multiset) the slices `source.getAllTags(sourceOffset, length)`, each with its offset
increased by `offset - sourceOffset` and with the same length and an equal tag. The source is
passed by `const` reference and is not part of the result. -/
theorem copyTags_range (dest source : RegionTagSet) (sourceOffset offset length : Int)
    (hl : 0 < length) (hns : ∀ r ∈ dest.tags, ¬ r.strictlyContains offset length) :
    ∃ dest' slices, dest.copyTags source sourceOffset offset length = .ok dest'
      ∧ source.getAllTags sourceOffset length = .ok slices
      ∧ (dest'.tags.filter fun r => r.intersects offset length).Perm
          (slices.map fun r => ⟨r.offset + (offset - sourceOffset), r.length, r.tag⟩) := by
  have hclear := clearTags_of_noSplit dest offset length
    fun r hr => not_takesSplit_of_not_strictlyContains r offset length (hns r hr)
  refine ⟨_, _, copyTagsFrom_eq _ dest _ sourceOffset offset length hclear,
    getAllTags_eq source sourceOffset length, ?_⟩
  have hperm := tags_foldl_addTag_perm
    (fun r => ⟨r.offset + (offset - sourceOffset), r.length, r.tag⟩)
    (source.tags.filterMap fun r => r.intersection sourceOffset length)
    (RegionTagSet.mk (dest.regionTags.map
      (List.filterMap (clearStep offset (offset + length))))).ensureAllocated
  refine (hperm.filter _).trans ?_
  rw [List.filter_append, tags_ensureAllocated]
  have h1 : (RegionTagSet.mk (dest.regionTags.map
      (List.filterMap (clearStep offset (offset + length))))).tags.filter
        (fun r => r.intersects offset length) = [] := by
    rw [List.filter_eq_nil_iff]
    intro x hx
    simpa using not_intersects_of_clearTags dest _ offset length hclear x hx
  rw [h1, List.nil_append, List.filter_eq_self.2]
  intro x hx
  rw [List.mem_map] at hx
  obtain ⟨y, hy, rfl⟩ := hx
  rw [List.mem_filterMap] at hy
  obtain ⟨r, _, hr⟩ := hy
  simpa using intersects_shifted_intersection r y sourceOffset offset length hl hr

/-- Instance of `copyTags_range`, scenario 4: the source holds `T` at `[0, 10)`, and
`copy(source, 0, 100, 10)` into the empty store. -/
theorem copyTags_range_witness :
    ∃ dest' slices, empty.copyTags ⟨some [⟨0, 10, Tag.new 0⟩]⟩ 0 100 10 = .ok dest'
      ∧ (RegionTagSet.mk (some [⟨0, 10, Tag.new 0⟩])).getAllTags 0 10 = .ok slices
      ∧ (dest'.tags.filter fun r => r.intersects 100 10).Perm
          (slices.map fun r => ⟨r.offset + (100 - 0), r.length, r.tag⟩) :=
  copyTags_range empty ⟨some [⟨0, 10, Tag.new 0⟩]⟩ 0 100 10 (by decide) (by simp [empty, tags])

/-- Copying a store onto itself at the same position is `clearTags` followed by
`ensureAllocated`: `source.getAllTags` reads the object after it has been cleared. -/
theorem copyTagsSelf_same_offset (s : RegionTagSet) (offset length : Int) :
    s.copyTagsSelf offset offset length
      = (s.clearTags offset length).map ensureAllocated := by
  cases hc : s.clearTags offset length with
  | error e => exact copyTagsFrom_error _ s _ _ _ e hc
  | ok s₁ =>
    rw [copyTagsSelf, copyTagsFrom_eq _ s s₁ _ _ _ hc]
    simp only [id, tags_ensureAllocated]
    rw [filterMap_intersection_eq_nil _ _ _ (not_intersects_of_clearTags s s₁ offset length hc)]
    rfl

/-- C6 fails on the code: with `T` at `[0, 10)`, `copy(self, 0, 0, 10)` clears the range first and
then snapshots the already cleared store, so the store ends up without any region; with `[0, 10)`
and `[20, 30)` stored, `copy(self, 5, 5, 20)` leaves `[0, 5)` and `[25, 30)`. -/
theorem copyTagsSelf_loses_tags :
    (RegionTagSet.mk (some [⟨0, 10, Tag.new 0⟩])).copyTagsSelf 0 0 10 = .ok ⟨some []⟩
      ∧ (RegionTagSet.mk (some [⟨0, 10, Tag.new 0⟩, ⟨20, 10, Tag.new 1⟩])).copyTagsSelf 5 5 20
          = .ok ⟨some [⟨0, 5, Tag.new 0⟩, ⟨25, 5, Tag.new 1⟩]⟩ := by
  decide

theorem findTag_of_first_inexact (s : RegionTagSet) (T : Nat) (offset length : Int)
    (pre post : List RegionTag) (r : RegionTag) (h : s.tags = pre ++ r :: post)
    (hpre : ∀ x ∈ pre, ¬ (x.tag.typeId = T ∧ x.intersects offset length))
    (hr : r.tag.typeId = T ∧ r.intersects offset length)
    (hx : ¬ (r.offset = offset ∧ r.length = length)) :
    s.findTag T offset length = .error .overlappingTag := by
  unfold findTag
  rw [getTagIndex_of_first_inexact s T offset length pre post r h hpre hr hx]

theorem getTagT_of_first_inexact (s : RegionTagSet) (T : Nat) (offset length : Int)
    (pre post : List RegionTag) (r : RegionTag) (h : s.tags = pre ++ r :: post)
    (hpre : ∀ x ∈ pre, ¬ (x.tag.typeId = T ∧ x.intersects offset length))
    (hr : r.tag.typeId = T ∧ r.intersects offset length)
    (hx : ¬ (r.offset = offset ∧ r.length = length)) :
    s.getTagT T offset length = .error .overlappingTag := by
  unfold getTagT
  rw [getTagIndex_of_first_inexact s T offset length pre post r h hpre hr hx]

/-- C11: `get<T>` and `find<T>` agree. `get<T>` fails with the tag-absent error exactly when
`find<T>` returns absent, which is exactly when no stored region of type `T` intersects the range
(passes the intersection test `s < offset + length` and `offset < e`); and whenever `find<T>`
returns a tag, `get<T>` returns the same tag. -/
theorem getTagT_findTag_agree (s : RegionTagSet) (T : Nat) (offset length : Int) :
    (s.getTagT T offset length = .error .tagAbsent ↔ s.findTag T offset length = .ok none)
      ∧ (s.findTag T offset length = .ok none ↔
          ∀ r ∈ s.tags, ¬ (r.tag.typeId = T ∧ r.intersects offset length))
      ∧ (∀ tag, s.findTag T offset length = .ok (some tag) →
          s.getTagT T offset length = .ok tag) := by
  rcases exists_first_or_none (fun x : RegionTag => x.tag.typeId = T ∧ x.intersects offset length)
      s.tags with hnone | ⟨pre, r, post, hsplit, hpre, hr⟩
  · rw [findTag_of_none s T offset length hnone, getTagT_of_none s T offset length hnone]
    refine ⟨⟨fun _ => rfl, fun _ => rfl⟩, ⟨fun _ => hnone, fun _ => rfl⟩, ?_⟩
    intro tag h
    cases h
  · have hmem : r ∈ s.tags := by rw [hsplit]; simp
    by_cases hx : r.offset = offset ∧ r.length = length
    · rw [findTag_of_first_exact s T offset length pre post r hsplit hpre hr hx,
        getTagT_of_first_exact s T offset length pre post r hsplit hpre hr hx]
      refine ⟨⟨fun h => ?_, fun h => ?_⟩, ⟨fun h => ?_, fun h => absurd hr (h r hmem)⟩, ?_⟩
      · cases h
      · cases h
      · cases h
      · intro tag h
        injection h with h
        injection h with h
        rw [h]
    · rw [findTag_of_first_inexact s T offset length pre post r hsplit hpre hr hx,
        getTagT_of_first_inexact s T offset length pre post r hsplit hpre hr hx]
      refine ⟨⟨fun h => ?_, fun h => ?_⟩, ⟨fun h => ?_, fun h => absurd hr (h r hmem)⟩, ?_⟩
      · cases h
      · cases h
      · cases h
      · intro tag h
        cases h

theorem splitTags_single_of_not_straddling (r : RegionTag) (T : Nat) (offset : Int)
    (h : ¬ (r.getStartOffset < offset ∧ offset < r.getEndOffset)) :
    (RegionTagSet.mk (some [r])).splitTags T offset = ⟨some [r]⟩ := by
  simp [splitTags, splitTagsLoop, h, sortRegionTags]

/-- C12: on a store holding the single region `[a, b)` of type `T`, with `offset < a` and
`b < offset + length`, `addWhereAbsent<T>(offset, length)` returns exactly the two entries
`[offset, a)` and `[b, offset + length)`, in that order, and the store afterwards holds exactly
the three regions `[offset, a)`, `[a, b)`, `[b, offset + length)` of type `T`, the middle one with
its original tag. -/
theorem addTagsWhereAbsent_around_single (T : Nat) (t : Tag) (a b offset length : Int)
    (ht : t.typeId = T) (hab : a ≤ b) (h1 : offset < a) (h2 : b < offset + length) :
    (RegionTagSet.mk (some [⟨a, b - a, t⟩])).addTagsWhereAbsent T offset length
      = ([⟨offset, a - offset, Tag.new T⟩, ⟨b, offset + length - b, Tag.new T⟩],
          ⟨some [⟨offset, a - offset, Tag.new T⟩, ⟨a, b - a, t⟩,
            ⟨b, offset + length - b, Tag.new T⟩]⟩)
      ∧ (Tag.new T).typeId = T := by
  refine ⟨?_, rfl⟩
  have hs1 : ¬ ((RegionTag.mk a (b - a) t).getStartOffset < offset
      ∧ offset < (RegionTag.mk a (b - a) t).getEndOffset) := by
    simp only [RegionTag.getStartOffset]; omega
  have hs2 : ¬ ((RegionTag.mk a (b - a) t).getStartOffset < offset + length
      ∧ offset + length < (RegionTag.mk a (b - a) t).getEndOffset) := by
    simp only [RegionTag.getStartOffset, RegionTag.getEndOffset]; omega
  unfold addTagsWhereAbsent
  simp only [splitTags_single_of_not_straddling _ T _ hs1,
    splitTags_single_of_not_straddling _ T _ hs2]
  have e1 : a - offset > 0 := by omega
  have e2 : ¬ (a - offset > offset + length - offset) := by omega
  have e3 : ¬ (offset + (a - offset + (b - a)) ≥ offset + length) := by omega
  have e4 : offset + length - (offset + (a - offset + (b - a))) > 0 := by omega
  have e5 : offset + (a - offset + (b - a)) = b := by omega
  simp only [addTagsWhereAbsentLoop, RegionTag.getTag, RegionTag.getStartOffset,
    RegionTag.getLength, RegionTag.getOffset, Tag.dup, ht, if_true, e1, e2, e3, e4, if_false,
    List.nil_append, List.cons_append, List.map_cons, List.map_nil, e5]
  have o1 : offset ≤ b := by omega
  have o2 : ¬ (a ≤ offset) := by omega
  simp [sortRegionTags, List.insertionSort, List.orderedInsert, RegionTag.le, o1, o2, hab, h2]

/-- Instance of `addTagsWhereAbsent_around_single`, scenario 6: `T` at `[10, 20)` and
`addWhereAbsent<T>(0, 30)`. -/
theorem addTagsWhereAbsent_around_single_witness :
    (RegionTagSet.mk (some [⟨10, 10, ⟨0, 7⟩⟩])).addTagsWhereAbsent 0 0 30
      = ([⟨0, 10, Tag.new 0⟩, ⟨20, 10, Tag.new 0⟩],
          ⟨some [⟨0, 10, Tag.new 0⟩, ⟨10, 10, ⟨0, 7⟩⟩, ⟨20, 10, Tag.new 0⟩]⟩)
      ∧ (Tag.new 0).typeId = 0 :=
  addTagsWhereAbsent_around_single 0 ⟨0, 7⟩ 10 20 0 30 rfl (by decide) (by decide) (by decide)

/-- The scan of `addTagsWhereAbsent` either has collected an entry or has left `o` where it
was. -/
theorem addTagsWhereAbsentLoop_result (T : Nat) (endOffset : Int) :
    ∀ (v : List RegionTag) (o : Int) (result : List RegionTag),
      (addTagsWhereAbsentLoop T endOffset v o result).2 ≠ []
        ∨ addTagsWhereAbsentLoop T endOffset v o result = (o, result) := by
  intro v
  induction v with
  | nil => intro o result; right; rfl
  | cons r v ih =>
    intro o result
    have pushed : ∀ (o' : Int) (e : RegionTag),
        (if o' ≥ endOffset then (o', result ++ [e])
          else addTagsWhereAbsentLoop T endOffset v o' (result ++ [e])).2 ≠ [] := by
      intro o' e
      split
      · simp
      · rcases ih o' (result ++ [e]) with h | h
        · exact h
        · rw [h]; simp
    have key : ∀ x, x = addTagsWhereAbsentLoop T endOffset (r :: v) o result →
        (x.2 ≠ [] ∨ x = (o, result)) := by
      intro x hx
      rw [addTagsWhereAbsentLoop] at hx
      split at hx
      · dsimp only at hx
        split at hx
        · left; rw [hx]; exact pushed _ _
        · rw [hx]; exact ih o result
      · rw [hx]; exact ih o result
    exact key _ rfl

/-- On a store whose vector is allocated, `addTagsWhereAbsent` over a range of positive length
always returns at least one new entry, whatever the store already holds. -/
theorem addTagsWhereAbsent_ne_nil (v : List RegionTag) (T : Nat) (offset length : Int)
    (hl : 0 < length) :
    ((RegionTagSet.mk (some v)).addTagsWhereAbsent T offset length).1 ≠ [] := by
  unfold addTagsWhereAbsent
  simp only [splitTags]
  generalize sortRegionTags _ = w
  rcases addTagsWhereAbsentLoop_result T (offset + length) w offset [] with h | h
  · split
    · simp
    · exact h
  · rw [h]
    dsimp only
    rw [if_pos (by omega)]
    simp

/-- C13 fails on the code at scenario 6 repeated: with `T` at `[10, 20)`, the first
`addWhereAbsent<T>(0, 30)` returns `[0, 10)` and `[20, 30)`, and the second call on the same range
returns `[0, 10)` and `[20, 30)` once more and grows the store from three regions to five. -/
theorem addTagsWhereAbsent_second_call_adds_again :
    ((RegionTagSet.mk (some [⟨10, 10, Tag.new 0⟩])).addTagsWhereAbsent 0 0 30).2
        = ⟨some [⟨0, 10, Tag.new 0⟩, ⟨10, 10, Tag.new 0⟩, ⟨20, 10, Tag.new 0⟩]⟩
      ∧ (RegionTagSet.mk (some [⟨0, 10, Tag.new 0⟩, ⟨10, 10, Tag.new 0⟩,
            ⟨20, 10, Tag.new 0⟩])).addTagsWhereAbsent 0 0 30
          = ([⟨0, 10, Tag.new 0⟩, ⟨20, 10, Tag.new 0⟩],
              ⟨some [⟨0, 10, Tag.new 0⟩, ⟨0, 10, Tag.new 0⟩, ⟨10, 10, Tag.new 0⟩,
                ⟨20, 10, Tag.new 0⟩, ⟨20, 10, Tag.new 0⟩]⟩) := by
  decide

/-- C14 fails on the code: after `add<T>(0, 10)`, the regions of type `T` are pairwise disjoint,
and `addWhereAbsent<T>(0, 30)` returns the single entry `[0, 30)`, which is not the uncovered part
`[10, 30)` and intersects the region `[0, 10)` stored before the call. -/
theorem addTagsWhereAbsent_entry_overlaps_existing :
    (empty.addTagT 0 0 10).2 = ⟨some [⟨0, 10, Tag.new 0⟩]⟩
      ∧ (RegionTagSet.mk (some [⟨0, 10, Tag.new 0⟩])).SameTypeDisjoint
      ∧ (RegionTagSet.mk (some [⟨0, 10, Tag.new 0⟩])).addTagsWhereAbsent 0 0 30
          = ([⟨0, 30, Tag.new 0⟩], ⟨some [⟨0, 10, Tag.new 0⟩, ⟨0, 30, Tag.new 0⟩]⟩)
      ∧ (RegionTag.mk 0 10 (Tag.new 0)).intersects 0 30 := by
  decide

/-- C15 fails on the code: on the freshly constructed store (`regionTags` is `nullptr`)
`addWhereAbsent<T>` returns no entry and stores nothing, for every type and range, so `find<T>`
on the range returns absent; on an allocated empty vector the same call returns the one entry
`[0, 30)`. -/
theorem addTagsWhereAbsent_on_null_store (T : Nat) (offset length : Int) :
    empty.addTagsWhereAbsent T offset length = ([], empty)
      ∧ (empty.addTagsWhereAbsent T offset length).2.findTag T offset length = .ok none
      ∧ (RegionTagSet.mk (some [])).addTagsWhereAbsent 0 0 30
          = ([⟨0, 30, Tag.new 0⟩], ⟨some [⟨0, 30, Tag.new 0⟩]⟩) :=
  ⟨rfl, rfl, by decide⟩

/-- After a raw insertion of a region of type `T` and positive length over a range that no stored
region of type `T` intersected, the inserted region is the first one of type `T` in the vector
that intersects the range. -/
theorem addTag_first_match (s : RegionTagSet) (T : Nat) (offset length : Int) (hl : 0 < length)
    (hfree : ∀ x ∈ s.tags, ¬ (x.tag.typeId = T ∧ x.intersects offset length)) :
    ∃ pre post, (s.addTag offset length (Tag.new T)).tags
        = pre ++ ⟨offset, length, Tag.new T⟩ :: post
      ∧ ∀ x ∈ pre, ¬ (x.tag.typeId = T ∧ x.intersects offset length) := by
  have hperm := tags_addTag_perm s offset length (Tag.new T)
  have hnew : (⟨offset, length, Tag.new T⟩ : RegionTag).tag.typeId = T
      ∧ (⟨offset, length, Tag.new T⟩ : RegionTag).intersects offset length :=
    ⟨rfl, intersects_self ⟨offset, length, Tag.new T⟩ hl⟩
  rcases exists_first_or_none (fun x : RegionTag => x.tag.typeId = T ∧ x.intersects offset length)
      (s.addTag offset length (Tag.new T)).tags with hnone | ⟨pre, r, post, hsplit, hpre, hr⟩
  · exact absurd hnew (hnone _ (hperm.mem_iff.2 (List.mem_cons_self _ _)))
  · have hmem : r ∈ (s.addTag offset length (Tag.new T)).tags := by
      rw [hsplit]; simp
    have hr' : r = ⟨offset, length, Tag.new T⟩ := by
      rcases List.mem_cons.1 (hperm.mem_iff.1 hmem) with h | h
      · exact h
      · exact absurd hr (hfree r h)
    rw [hr'] at hsplit
    exact ⟨pre, post, hsplit, hpre⟩

theorem addTagIfAbsent_of_found (s : RegionTagSet) (T : Nat) (offset length : Int) (tag : Tag)
    (h : s.findTag T offset length = .ok (some tag)) :
    s.addTagIfAbsent T offset length = (.ok tag, s) := by
  unfold addTagIfAbsent
  rw [h]

theorem addTagIfAbsent_of_absent (s : RegionTagSet) (T : Nat) (offset length : Int)
    (h : s.findTag T offset length = .ok none) :
    s.addTagIfAbsent T offset length
      = (.ok (Tag.new T), s.addTag offset length (Tag.new T)) := by
  unfold addTagIfAbsent
  rw [h]

theorem addTagIfAbsent_of_error (s : RegionTagSet) (T : Nat) (offset length : Int) (e : Error)
    (h : s.findTag T offset length = .error e) :
    s.addTagIfAbsent T offset length = (.error e, s) := by
  unfold addTagIfAbsent
  rw [h]

/-- C16 as stated fails for an empty range: on the freshly constructed store,
`addIfAbsent<T>(5, 0)` succeeds and stores `(5, 0)`, and the repeated call succeeds again and
stores a second `(5, 0)`, because a region of length 0 does not pass the intersection test of the
scan for its own range. -/
theorem addTagIfAbsent_empty_range_grows :
    empty.addTagIfAbsent 0 5 0 = (.ok (Tag.new 0), ⟨some [⟨5, 0, Tag.new 0⟩]⟩)
      ∧ (RegionTagSet.mk (some [⟨5, 0, Tag.new 0⟩])).addTagIfAbsent 0 5 0
          = (.ok (Tag.new 0), ⟨some [⟨5, 0, Tag.new 0⟩, ⟨5, 0, Tag.new 0⟩]⟩)
      ∧ (RegionTagSet.mk (some [⟨5, 0, Tag.new 0⟩])).getNumTags = 1
      ∧ (RegionTagSet.mk (some [⟨5, 0, Tag.new 0⟩, ⟨5, 0, Tag.new 0⟩])).getNumTags = 2 := by
  decide

/-- C16, amended: for a range of positive length on which `addIfAbsent<T>` succeeds, an
immediately repeated `addIfAbsent<T>` on the same range returns the same tag as the first call
and leaves the store as the first call left it. -/
theorem addTagIfAbsent_idempotent (s : RegionTagSet) (T : Nat) (offset length : Int)
    (hl : 0 < length) (tag : Tag) (h : (s.addTagIfAbsent T offset length).1 = .ok tag) :
    (s.addTagIfAbsent T offset length).2.addTagIfAbsent T offset length
      = (.ok tag, (s.addTagIfAbsent T offset length).2) := by
  rcases exists_first_or_none (fun x : RegionTag => x.tag.typeId = T ∧ x.intersects offset length)
      s.tags with hnone | ⟨pre, r, post, hsplit, hpre, hr⟩
  · have h1 := addTagIfAbsent_of_absent s T offset length (findTag_of_none s T offset length hnone)
    rw [h1] at h ⊢
    injection h with h
    subst h
    obtain ⟨pre, post, hsplit, hpre⟩ := addTag_first_match s T offset length hl hnone
    exact addTagIfAbsent_of_found _ T offset length _
      (findTag_of_first_exact _ T offset length pre post _ hsplit hpre
        ⟨rfl, intersects_self ⟨offset, length, Tag.new T⟩ hl⟩ ⟨rfl, rfl⟩)
  · by_cases hx : r.offset = offset ∧ r.length = length
    · have hf := findTag_of_first_exact s T offset length pre post r hsplit hpre hr hx
      have h1 := addTagIfAbsent_of_found s T offset length r.tag hf
      rw [h1] at h ⊢
      injection h with h
      subst h
      exact h1
    · have hf := findTag_of_first_inexact s T offset length pre post r hsplit hpre hr hx
      rw [addTagIfAbsent_of_error s T offset length _ hf] at h
      cases h

/-- Instance of `addTagIfAbsent_idempotent`: the freshly constructed store and
`addIfAbsent<T>(0, 10)` twice. -/
theorem addTagIfAbsent_idempotent_witness :
    (empty.addTagIfAbsent 0 0 10).2.addTagIfAbsent 0 0 10
      = (.ok (Tag.new 0), (empty.addTagIfAbsent 0 0 10).2) :=
  addTagIfAbsent_idempotent empty 0 0 10 (by decide) (Tag.new 0) (by decide)

theorem removeTagT_of_first_exact (s : RegionTagSet) (T : Nat) (offset length : Int)
    (pre post : List RegionTag) (r : RegionTag) (h : s.tags = pre ++ r :: post)
    (hpre : ∀ x ∈ pre, ¬ (x.tag.typeId = T ∧ x.intersects offset length))
    (hr : r.tag.typeId = T ∧ r.intersects offset length)
    (hx : r.offset = offset ∧ r.length = length) :
    s.removeTagT T offset length = (.ok .dangling, ⟨some (pre ++ post)⟩) := by
  unfold removeTagT
  rw [getTagIndex_of_first_exact s T offset length pre post r h hpre hr hx]
  simp only
  rw [if_neg (natCast_ne_neg_one _), regionTags_of_tags_eq s pre post r h, removeTag_length]

theorem removeTagIfPresent_of_first_exact (s : RegionTagSet) (T : Nat) (offset length : Int)
    (pre post : List RegionTag) (r : RegionTag) (h : s.tags = pre ++ r :: post)
    (hpre : ∀ x ∈ pre, ¬ (x.tag.typeId = T ∧ x.intersects offset length))
    (hr : r.tag.typeId = T ∧ r.intersects offset length)
    (hx : r.offset = offset ∧ r.length = length) :
    s.removeTagIfPresent T offset length = (.ok (some .dangling), ⟨some (pre ++ post)⟩) := by
  unfold removeTagIfPresent
  rw [getTagIndex_of_first_exact s T offset length pre post r h hpre hr hx]
  simp only
  rw [if_neg (natCast_ne_neg_one _), regionTags_of_tags_eq s pre post r h, removeTag_length]

theorem removeTagT_of_first_inexact (s : RegionTagSet) (T : Nat) (offset length : Int)
    (pre post : List RegionTag) (r : RegionTag) (h : s.tags = pre ++ r :: post)
    (hpre : ∀ x ∈ pre, ¬ (x.tag.typeId = T ∧ x.intersects offset length))
    (hr : r.tag.typeId = T ∧ r.intersects offset length)
    (hx : ¬ (r.offset = offset ∧ r.length = length)) :
    s.removeTagT T offset length = (.error .overlappingTag, s)
      ∧ s.removeTagIfPresent T offset length = (.error .overlappingTag, s) := by
  unfold removeTagT removeTagIfPresent
  rw [getTagIndex_of_first_inexact s T offset length pre post r h hpre hr hx]
  exact ⟨rfl, rfl⟩

theorem removeTagT_of_none (s : RegionTagSet) (T : Nat) (offset length : Int)
    (h : ∀ x ∈ s.tags, ¬ (x.tag.typeId = T ∧ x.intersects offset length)) :
    s.removeTagT T offset length = (.error .tagAbsent, s)
      ∧ s.removeTagIfPresent T offset length = (.ok none, s) := by
  unfold removeTagT removeTagIfPresent
  rw [getTagIndex_of_none s T offset length h]
  exact ⟨rfl, rfl⟩

/-- Every successful `remove<T>` and `removeIfPresent<T>` has found the first region of type `T`
intersecting the range, which has exactly the offset and length asked for, leaves the vector
without that one region, the others unchanged and in order, and returns a dangling pointer;
without a region of type `T` intersecting the range, `remove<T>` fails with the tag-absent error
and `removeIfPresent<T>` returns `nullptr`, and the store stays as it was. -/
theorem removeTagT_success (s : RegionTagSet) (T : Nat) (offset length : Int) :
    (∀ ptr s', s.removeTagT T offset length = (.ok ptr, s') →
        ∃ pre r post, s.tags = pre ++ r :: post ∧ r.tag.typeId = T ∧ r.offset = offset
          ∧ r.length = length ∧ ptr = .dangling ∧ s' = ⟨some (pre ++ post)⟩)
      ∧ (∀ ptr s', s.removeTagIfPresent T offset length = (.ok (some ptr), s') →
        ∃ pre r post, s.tags = pre ++ r :: post ∧ r.tag.typeId = T ∧ r.offset = offset
          ∧ r.length = length ∧ ptr = .dangling ∧ s' = ⟨some (pre ++ post)⟩)
      ∧ ((∀ r ∈ s.tags, ¬ (r.tag.typeId = T ∧ r.intersects offset length)) →
          s.removeTagT T offset length = (.error .tagAbsent, s)
            ∧ s.removeTagIfPresent T offset length = (.ok none, s)) := by
  refine ⟨?_, ?_, removeTagT_of_none s T offset length⟩
  · intro ptr s' h
    rcases exists_first_or_none
        (fun x : RegionTag => x.tag.typeId = T ∧ x.intersects offset length)
        s.tags with hnone | ⟨pre, r, post, hsplit, hpre, hr⟩
    · rw [(removeTagT_of_none s T offset length hnone).1] at h
      cases h
    · by_cases hx : r.offset = offset ∧ r.length = length
      · rw [removeTagT_of_first_exact s T offset length pre post r hsplit hpre hr hx] at h
        simp only [Prod.mk.injEq, Except.ok.injEq] at h
        exact ⟨pre, r, post, hsplit, hr.1, hx.1, hx.2, h.1.symm, h.2.symm⟩
      · rw [(removeTagT_of_first_inexact s T offset length pre post r hsplit hpre hr hx).1] at h
        cases h
  · intro ptr s' h
    rcases exists_first_or_none
        (fun x : RegionTag => x.tag.typeId = T ∧ x.intersects offset length)
        s.tags with hnone | ⟨pre, r, post, hsplit, hpre, hr⟩
    · rw [(removeTagT_of_none s T offset length hnone).2] at h
      cases h
    · by_cases hx : r.offset = offset ∧ r.length = length
      · rw [removeTagIfPresent_of_first_exact s T offset length pre post r hsplit hpre hr hx]
          at h
        simp only [Prod.mk.injEq, Except.ok.injEq, Option.some.injEq] at h
        exact ⟨pre, r, post, hsplit, hr.1, hx.1, hx.2, h.1.symm, h.2.symm⟩
      · rw [(removeTagT_of_first_inexact s T offset length pre post r hsplit hpre hr hx).2] at h
        cases h

/-- C17 fails on the code: the store holds `T0` at `[0, 10)`, `T1` at `[5, 15)` with a tag of
value 7, and `T0` at `[20, 25)`. `get<T1>(5, 10)` returns the live tag; `remove<T1>(5, 10)` and
`removeIfPresent<T1>(5, 10)` erase exactly that region, as the claim says, but the pointer they
return is dangling: `removeTag(int)` reads the pointer, `erase` then deletes the tag through the
move assignment of `RegionTag`, and only then is the pointer returned. Where nothing of type `T1`
is stored, `remove<T1>(30, 5)` fails with tag-absent and `removeIfPresent<T1>(30, 5)` returns
`nullptr`, the store unchanged. -/
theorem removeTagT_returns_dangling :
    (RegionTagSet.mk (some [⟨0, 10, Tag.new 0⟩, ⟨5, 10, ⟨1, 7⟩⟩, ⟨20, 5, Tag.new 0⟩])).getTagT
        1 5 10 = .ok ⟨1, 7⟩
      ∧ (RegionTagSet.mk (some [⟨0, 10, Tag.new 0⟩, ⟨5, 10, ⟨1, 7⟩⟩,
            ⟨20, 5, Tag.new 0⟩])).removeTagT 1 5 10
          = (.ok .dangling, ⟨some [⟨0, 10, Tag.new 0⟩, ⟨20, 5, Tag.new 0⟩]⟩)
      ∧ (RegionTagSet.mk (some [⟨0, 10, Tag.new 0⟩, ⟨5, 10, ⟨1, 7⟩⟩,
            ⟨20, 5, Tag.new 0⟩])).removeTagIfPresent 1 5 10
          = (.ok (some .dangling), ⟨some [⟨0, 10, Tag.new 0⟩, ⟨20, 5, Tag.new 0⟩]⟩)
      ∧ (RegionTagSet.mk (some [⟨0, 10, Tag.new 0⟩, ⟨5, 10, ⟨1, 7⟩⟩,
            ⟨20, 5, Tag.new 0⟩])).removeTagT 1 5 10
          ≠ (.ok (.live ⟨1, 7⟩), ⟨some [⟨0, 10, Tag.new 0⟩, ⟨20, 5, Tag.new 0⟩]⟩)
      ∧ (RegionTagSet.mk (some [⟨0, 10, Tag.new 0⟩, ⟨5, 10, ⟨1, 7⟩⟩,
            ⟨20, 5, Tag.new 0⟩])).removeTagT 1 30 5
          = (.error .tagAbsent,
              ⟨some [⟨0, 10, Tag.new 0⟩, ⟨5, 10, ⟨1, 7⟩⟩, ⟨20, 5, Tag.new 0⟩]⟩)
      ∧ (RegionTagSet.mk (some [⟨0, 10, Tag.new 0⟩, ⟨5, 10, ⟨1, 7⟩⟩,
            ⟨20, 5, Tag.new 0⟩])).removeTagIfPresent 1 30 5
          = (.ok none, ⟨some [⟨0, 10, Tag.new 0⟩, ⟨5, 10, ⟨1, 7⟩⟩, ⟨20, 5, Tag.new 0⟩]⟩) := by
  decide

theorem mapAllTagsT_eq (s : RegionTagSet) (T : Nat) (offset length : Int) :
    s.mapAllTagsT T offset length
      = .ok ((s.tags.filterMap fun r => r.intersection offset length).filter
          fun r => r.tag.typeId = T) := by
  rw [mapAllTagsT, mapAllTags_eq]
  rfl

/-- C18 fails on the code when a stored region strictly contains the range. The store holds `T0`
at `[0, 20)` and `T1` at `[8, 12)`; the read-only `forEachTag<T0>(5, 10)` reports the one slice
`[5, 15)` of type `T0`, but `removeAllPresent<T0>(5, 10)` returns nothing: its `clearTags(5, 10)`
takes the splitting branch on `[0, 20)` at every step and is still running after any number of
steps, so no slices are returned, no resulting store exists and the region of `T1` inside the
range is never deleted. -/
theorem removeTagsWherePresent_diverges_inside_region :
    (RegionTagSet.mk (some [⟨0, 20, Tag.new 0⟩, ⟨8, 4, Tag.new 1⟩])).Sorted
      ∧ (RegionTagSet.mk (some [⟨0, 20, Tag.new 0⟩, ⟨8, 4, Tag.new 1⟩])).mapAllTagsT 0 5 10
          = .ok [⟨5, 10, Tag.new 0⟩]
      ∧ (RegionTagSet.mk (some [⟨0, 20, Tag.new 0⟩, ⟨8, 4, Tag.new 1⟩])).removeTagsWherePresent
          0 5 10 = .error .nonTermination
      ∧ (RegionTagSet.mk (some [⟨0, 20, Tag.new 0⟩, ⟨8, 4, Tag.new 1⟩])).clearTags 5 10
          = .error .nonTermination
      ∧ (∀ fuel, clearTagsLoop 5 (5 + 10) fuel 0 [⟨0, 20, Tag.new 0⟩, ⟨8, 4, Tag.new 1⟩]
          = .error .nonTermination) :=
  ⟨by decide, by decide, by decide, by decide, fun fuel =>
    clearTagsLoop_diverges 5 (5 + 10) fuel [] _ ⟨⟨0, 20, Tag.new 0⟩, by simp,
      by simp [takesSplit, RegionTag.getStartOffset, RegionTag.getEndOffset]⟩⟩

/-- Where `removeAllPresent<T>` does return. The read-only `forEachTag<T>` always reports a list
of slices on the original store; `removeTagsWherePresent<T>` returns exactly when `clearTags`
returns on the original store, in particular whenever no stored region strictly contains the
range, and then it returns exactly those slices and leaves the store `clearTags` leaves, whatever
the types of the regions in the range. -/
theorem removeTagsWherePresent_slices_then_clearTags (s : RegionTagSet) (T : Nat)
    (offset length : Int) :
    ∃ slices, s.mapAllTagsT T offset length = .ok slices
      ∧ (∀ s₁, s.clearTags offset length = .ok s₁ →
          s.removeTagsWherePresent T offset length = .ok (slices, s₁))
      ∧ (∀ result s₁, s.removeTagsWherePresent T offset length = .ok (result, s₁) →
          result = slices ∧ s.clearTags offset length = .ok s₁)
      ∧ ((∀ r ∈ s.tags, ¬ r.strictlyContains offset length) →
          ∃ s₁, s.clearTags offset length = .ok s₁
            ∧ s.removeTagsWherePresent T offset length = .ok (slices, s₁)) := by
  have hok : ∀ s₁, s.clearTags offset length = .ok s₁ →
      s.removeTagsWherePresent T offset length
        = .ok ((s.tags.filterMap fun r => r.intersection offset length).filter
            fun r => r.tag.typeId = T, s₁) := by
    intro s₁ h
    rw [removeTagsWherePresent_eq, h]
    rfl
  refine ⟨_, mapAllTagsT_eq s T offset length, hok, ?_, fun hns => ?_⟩
  · intro result s₁ h
    rw [removeTagsWherePresent_eq] at h
    cases hc : s.clearTags offset length with
    | error e => rw [hc] at h; cases h
    | ok s₂ =>
      rw [hc] at h
      simp only [Except.map, Except.ok.injEq, Prod.mk.injEq] at h
      exact ⟨h.1.symm, by rw [h.2]⟩
  · have hc := clearTags_of_noSplit s offset length
      fun r hr => not_takesSplit_of_not_strictlyContains r offset length (hns r hr)
    exact ⟨_, hc, hok _ hc⟩

/-- C19: `shift(delta)` maps the vector pointwise: the same number of regions in the same order,
each with its offset increased by `delta` and its length and tag unchanged, for every integer
`delta`; on the freshly constructed store and on an allocated empty vector it changes nothing;
and `T` at `[0, 10)` shifted by 5 is `T` at `[5, 15)`. -/
theorem moveTags_pointwise (s : RegionTagSet) (shift : Int) :
    (s.moveTags shift).tags = s.tags.map (fun r => ⟨r.offset + shift, r.length, r.tag⟩)
      ∧ (s.moveTags shift).getNumTags = s.getNumTags
      ∧ (∀ i : Nat, (s.moveTags shift).tags[i]?
          = s.tags[i]?.map fun r => ⟨r.offset + shift, r.length, r.tag⟩)
      ∧ empty.moveTags shift = empty
      ∧ (RegionTagSet.mk (some [])).moveTags shift = ⟨some []⟩
      ∧ (RegionTagSet.mk (some [⟨0, 10, Tag.new 0⟩])).moveTags 5 = ⟨some [⟨5, 10, Tag.new 0⟩]⟩ := by
  have h : (s.moveTags shift).tags
      = s.tags.map (fun r => ⟨r.offset + shift, r.length, r.tag⟩) := by
    obtain ⟨_ | v⟩ := s <;> rfl
  refine ⟨h, ?_, ?_, rfl, rfl, by decide⟩
  · rw [getNumTags_eq, getNumTags_eq, h, List.length_map]
  · intro i
    rw [h, List.getElem?_map]

/-- C20 fails on the code: starting from the freshly constructed store, `add<T>(0, 10)` followed
by `addWhereAbsent<T>(0, 30)` leaves the two regions `[0, 10)` and `[0, 30)` of the same type
`T`, which are neither disjoint nor equal, although the store satisfied I2 after each earlier
step. -/
theorem sameTypeDisjoint_broken_by_addTagsWhereAbsent :
    empty.SameTypeDisjoint
      ∧ (empty.addTagT 0 0 10).1 = .ok (Tag.new 0)
      ∧ (empty.addTagT 0 0 10).2.SameTypeDisjoint
      ∧ ((empty.addTagT 0 0 10).2.addTagsWhereAbsent 0 0 30).2
          = ⟨some [⟨0, 10, Tag.new 0⟩, ⟨0, 30, Tag.new 0⟩]⟩
      ∧ ¬ ((empty.addTagT 0 0 10).2.addTagsWhereAbsent 0 0 30).2.SameTypeDisjoint := by
  decide

/-- The loop of `clearTags` never reaches its `ASSERT(false)`, from any position in any vector
and for any number of steps. -/
theorem clearTagsLoop_ne_assertFailed (cs ce : Int) :
    ∀ (fuel it : Nat) (v : List RegionTag),
      clearTagsLoop cs ce fuel it v ≠ .error .assertFailed := by
  intro fuel
  induction fuel with
  | zero => intro it v h; cases h
  | succ fuel ih =>
    intro it v
    rw [clearTagsLoop]
    split
    · intro h; cases h
    · rename_i r _
      split
      · exact ih _ _
      · split
        · exact ih _ _
        · split
          · exact ih _ _
          · split
            · exact ih _ _
            · split
              · exact ih _ _
              · rename_i h1 h2 h3 h4 h5
                exfalso
                omega

/-- C30: the case analysis in the raw `mapAllTags` and in `clearTags` is exhaustive. For every
region and range with integer offsets and lengths one of the five branch conditions holds
(no intersection, fully covered, strictly inside, cuts end, cuts beginning), so the loop of
`mapAllTags` always returns its list of calls, and neither it nor the loop of `clearTags`, at any
position and after any number of steps, ends in `ASSERT(false)`. -/
theorem case_analysis_exhaustive (cs ce : Int) :
    (∀ r : RegionTag,
        (ce ≤ r.getStartOffset ∨ r.getEndOffset ≤ cs)
          ∨ (cs ≤ r.getStartOffset ∧ r.getEndOffset ≤ ce)
          ∨ (r.getStartOffset < cs ∧ ce < r.getEndOffset)
          ∨ r.getEndOffset ≤ ce
          ∨ cs ≤ r.getStartOffset)
      ∧ (∀ v : List RegionTag, ∃ calls, mapAllTagsLoop cs ce v = .ok calls)
      ∧ (∀ v : List RegionTag, mapAllTagsLoop cs ce v ≠ .error .assertFailed)
      ∧ (∀ (fuel it : Nat) (v : List RegionTag),
          clearTagsLoop cs ce fuel it v ≠ .error .assertFailed)
      ∧ (∀ (s : RegionTagSet) (offset length : Int),
          s.mapAllTags offset length ≠ .error .assertFailed
            ∧ s.clearTags offset length ≠ .error .assertFailed) := by
  have hmap : ∀ v : List RegionTag, ∃ calls, mapAllTagsLoop cs ce v = .ok calls := by
    intro v
    have h := mapAllTagsLoop_eq cs (ce - cs) v
    rw [show cs + (ce - cs) = ce by omega] at h
    exact ⟨_, h⟩
  refine ⟨?_, hmap, ?_, clearTagsLoop_ne_assertFailed cs ce, ?_⟩
  · intro r
    omega
  · intro v h
    obtain ⟨calls, hc⟩ := hmap v
    rw [hc] at h
    cases h
  · intro s offset length
    constructor
    · rw [mapAllTags_eq]
      intro h
      cases h
    · obtain ⟨_ | v⟩ := s
      · intro h; cases h
      · intro h
        simp only [clearTags] at h
        cases hc : clearTagsLoop offset (offset + length) (v.length + 1) 0 v with
        | error e =>
          rw [hc] at h
          simp only [Except.map, Except.error.injEq] at h
          exact clearTagsLoop_ne_assertFailed _ _ _ _ _ (hc.trans (by rw [h]))
        | ok w =>
          rw [hc] at h
          cases h

/-- C24: the raw insert never fails and validates nothing. For every store and every offset,
length and tag, whatever is already stored, the vector afterwards is a permutation of the vector
before plus the one new region, and it is in non-decreasing order of offset. -/
theorem addTag_perm_sorted (s : RegionTagSet) (offset length : Int) (tag : Tag) :
    (s.addTag offset length tag).tags.Perm (⟨offset, length, tag⟩ :: s.tags)
      ∧ (s.addTag offset length tag).Sorted
      ∧ (s.addTag offset length tag).getNumTags = s.getNumTags + 1 := by
  have hperm := tags_addTag_perm s offset length tag
  refine ⟨hperm, sorted_addTag s offset length tag, ?_⟩
  rw [getNumTags_eq, getNumTags_eq, hperm.length_eq]
  simp

theorem tags_restrictToType (s : RegionTagSet) (T : Nat) :
    (s.restrictToType T).tags = s.tags.filter fun r => r.tag.typeId = T := by
  obtain ⟨_ | v⟩ := s <;> rfl

/-- The position `getTagIndex<T>` returns may differ, but whether it returns -1, a position or
the overlap error, and the region at the position, are the same on the store restricted to the
regions of type `T`. -/
theorem typed_queries_restrictToType (s : RegionTagSet) (T : Nat) (offset length : Int) :
    (s.restrictToType T).findTag T offset length = s.findTag T offset length
      ∧ (s.restrictToType T).getTagT T offset length = s.getTagT T offset length
      ∧ ((s.restrictToType T).addTagT T offset length).1 = (s.addTagT T offset length).1 := by
  rcases exists_first_or_none (fun x : RegionTag => x.tag.typeId = T ∧ x.intersects offset length)
      s.tags with hnone | ⟨pre, r, post, hsplit, hpre, hr⟩
  · have hnone' : ∀ x ∈ (s.restrictToType T).tags,
        ¬ (x.tag.typeId = T ∧ x.intersects offset length) := by
      intro x hx
      rw [tags_restrictToType] at hx
      exact hnone x (List.mem_of_mem_filter hx)
    rw [findTag_of_none _ T offset length hnone', findTag_of_none _ T offset length hnone,
      getTagT_of_none _ T offset length hnone', getTagT_of_none _ T offset length hnone]
    refine ⟨rfl, rfl, ?_⟩
    unfold addTagT
    rw [getTagIndex_of_none _ T offset length hnone', getTagIndex_of_none _ T offset length hnone]
    rfl
  · have hsplit' : (s.restrictToType T).tags
        = pre.filter (fun r => r.tag.typeId = T) ++ r :: post.filter fun r => r.tag.typeId = T := by
      rw [tags_restrictToType, hsplit, List.filter_append, List.filter_cons]
      simp [hr.1]
    have hpre' : ∀ x ∈ pre.filter (fun r => r.tag.typeId = T),
        ¬ (x.tag.typeId = T ∧ x.intersects offset length) :=
      fun x hx => hpre x (List.mem_of_mem_filter hx)
    by_cases hx : r.offset = offset ∧ r.length = length
    · rw [findTag_of_first_exact _ T offset length _ _ r hsplit' hpre' hr hx,
        findTag_of_first_exact _ T offset length _ _ r hsplit hpre hr hx,
        getTagT_of_first_exact _ T offset length _ _ r hsplit' hpre' hr hx,
        getTagT_of_first_exact _ T offset length _ _ r hsplit hpre hr hx,
        addTagT_of_first_exact _ T offset length _ _ r hsplit' hpre' hr hx,
        addTagT_of_first_exact _ T offset length _ _ r hsplit hpre hr hx]
      exact ⟨rfl, rfl, rfl⟩
    · rw [findTag_of_first_inexact _ T offset length _ _ r hsplit' hpre' hr hx,
        findTag_of_first_inexact _ T offset length _ _ r hsplit hpre hr hx,
        getTagT_of_first_inexact _ T offset length _ _ r hsplit' hpre' hr hx,
        getTagT_of_first_inexact _ T offset length _ _ r hsplit hpre hr hx]
      refine ⟨rfl, rfl, ?_⟩
      unfold addTagT
      rw [getTagIndex_of_first_inexact _ T offset length _ _ r hsplit' hpre' hr hx,
        getTagIndex_of_first_inexact _ T offset length _ _ r hsplit hpre hr hx]

/-- C21: typed exact-match queries do not depend on tags of other types. The outcome of
`find<T>` and of `get<T>` (the tag, absent, or the kind of failure), and whether `add<T>`
succeeds or how it fails, are the same on the store and on the store with every region of another
type removed; in particular `add<T>` succeeds whenever no region of type `T` intersects the
range, however regions of other types cover or overlap it. -/
theorem typed_queries_ignore_other_types (s : RegionTagSet) (T : Nat) (offset length : Int) :
    s.findTag T offset length = (s.restrictToType T).findTag T offset length
      ∧ s.getTagT T offset length = (s.restrictToType T).getTagT T offset length
      ∧ (s.addTagT T offset length).1 = ((s.restrictToType T).addTagT T offset length).1
      ∧ ((∀ r ∈ s.tags, r.tag.typeId = T → ¬ r.intersects offset length) →
          s.addTagT T offset length
            = (.ok (Tag.new T), s.addTag offset length (Tag.new T))) := by
  obtain ⟨h1, h2, h3⟩ := typed_queries_restrictToType s T offset length
  refine ⟨h1.symm, h2.symm, h3.symm, fun hfree => ?_⟩
  unfold addTagT
  rw [getTagIndex_of_none s T offset length fun x hx hp => hfree x hx hp.1 hp.2]
  simp

/-- Instance of `typed_queries_ignore_other_types`: the store holds `T1` at `[0, 10)`;
`add<T0>(0, 10)` over the covered range and `add<T0>(5, 10)` over the partially overlapped range
both succeed, and `find<T0>` returns absent as on the store without the `T1` region. -/
theorem typed_queries_ignore_other_types_witness :
    (RegionTagSet.mk (some [⟨0, 10, Tag.new 1⟩])).addTagT 0 0 10
        = (.ok (Tag.new 0), ⟨some [⟨0, 10, Tag.new 1⟩, ⟨0, 10, Tag.new 0⟩]⟩)
      ∧ (RegionTagSet.mk (some [⟨0, 10, Tag.new 1⟩])).addTagT 0 5 10
        = (.ok (Tag.new 0), ⟨some [⟨0, 10, Tag.new 1⟩, ⟨5, 10, Tag.new 0⟩]⟩)
      ∧ (RegionTagSet.mk (some [⟨0, 10, Tag.new 1⟩])).findTag 0 0 10
        = (RegionTagSet.mk (some [])).findTag 0 0 10 :=
  ⟨(typed_queries_ignore_other_types ⟨some [⟨0, 10, Tag.new 1⟩]⟩ 0 0 10).2.2.2 (by decide),
    (typed_queries_ignore_other_types ⟨some [⟨0, 10, Tag.new 1⟩]⟩ 0 5 10).2.2.2 (by decide),
    (typed_queries_ignore_other_types ⟨some [⟨0, 10, Tag.new 1⟩]⟩ 0 0 10).1⟩

theorem addTagT_of_none (s : RegionTagSet) (T : Nat) (offset length : Int)
    (h : ∀ x ∈ s.tags, ¬ (x.tag.typeId = T ∧ x.intersects offset length)) :
    s.addTagT T offset length = (.ok (Tag.new T), s.addTag offset length (Tag.new T)) := by
  unfold addTagT
  rw [getTagIndex_of_none s T offset length h]
  simp

theorem addTagT_of_first_inexact (s : RegionTagSet) (T : Nat) (offset length : Int)
    (pre post : List RegionTag) (r : RegionTag) (h : s.tags = pre ++ r :: post)
    (hpre : ∀ x ∈ pre, ¬ (x.tag.typeId = T ∧ x.intersects offset length))
    (hr : r.tag.typeId = T ∧ r.intersects offset length)
    (hx : ¬ (r.offset = offset ∧ r.length = length)) :
    s.addTagT T offset length = (.error .overlappingTag, s) := by
  unfold addTagT
  rw [getTagIndex_of_first_inexact s T offset length pre post r h hpre hr hx]

/-- C22: failures of the typed operations are atomic. Whenever `add<T>`, `remove<T>`,
`removeIfPresent<T>` or `addIfAbsent<T>` fails, the store after the call is the store before it,
and the failure is one of tag-present, tag-absent and overlap as the operation allows; `get<T>`
and `find<T>` are `const`, have no store after the call other than the one before it, and fail
only with tag-absent or overlap. -/
theorem typed_failures_atomic (s : RegionTagSet) (T : Nat) (offset length : Int) :
    (∀ e, (s.addTagT T offset length).1 = .error e →
        (s.addTagT T offset length).2 = s ∧ (e = .tagPresent ∨ e = .overlappingTag))
      ∧ (∀ e, (s.removeTagT T offset length).1 = .error e →
        (s.removeTagT T offset length).2 = s ∧ (e = .tagAbsent ∨ e = .overlappingTag))
      ∧ (∀ e, (s.removeTagIfPresent T offset length).1 = .error e →
        (s.removeTagIfPresent T offset length).2 = s ∧ e = .overlappingTag)
      ∧ (∀ e, (s.addTagIfAbsent T offset length).1 = .error e →
        (s.addTagIfAbsent T offset length).2 = s ∧ e = .overlappingTag)
      ∧ (∀ e, s.getTagT T offset length = .error e → e = .tagAbsent ∨ e = .overlappingTag)
      ∧ (∀ e, s.findTag T offset length = .error e → e = .overlappingTag) := by
  rcases exists_first_or_none (fun x : RegionTag => x.tag.typeId = T ∧ x.intersects offset length)
      s.tags with hnone | ⟨pre, r, post, hsplit, hpre, hr⟩
  · rw [addTagT_of_none s T offset length hnone, (removeTagT_of_none s T offset length hnone).1,
      (removeTagT_of_none s T offset length hnone).2,
      addTagIfAbsent_of_absent s T offset length (findTag_of_none s T offset length hnone),
      getTagT_of_none s T offset length hnone, findTag_of_none s T offset length hnone]
    refine ⟨fun e h => ?_, fun e h => ?_, fun e h => ?_, fun e h => ?_, fun e h => ?_,
      fun e h => ?_⟩
    · cases h
    · injection h with h; exact ⟨rfl, Or.inl h.symm⟩
    · cases h
    · cases h
    · injection h with h; exact Or.inl h.symm
    · cases h
  · by_cases hx : r.offset = offset ∧ r.length = length
    · rw [addTagT_of_first_exact s T offset length pre post r hsplit hpre hr hx,
        removeTagT_of_first_exact s T offset length pre post r hsplit hpre hr hx,
        removeTagIfPresent_of_first_exact s T offset length pre post r hsplit hpre hr hx,
        addTagIfAbsent_of_found s T offset length r.tag
          (findTag_of_first_exact s T offset length pre post r hsplit hpre hr hx),
        getTagT_of_first_exact s T offset length pre post r hsplit hpre hr hx,
        findTag_of_first_exact s T offset length pre post r hsplit hpre hr hx]
      refine ⟨fun e h => ?_, fun e h => ?_, fun e h => ?_, fun e h => ?_, fun e h => ?_,
        fun e h => ?_⟩
      · injection h with h; exact ⟨rfl, Or.inl h.symm⟩
      · cases h
      · cases h
      · cases h
      · cases h
      · cases h
    · rw [addTagT_of_first_inexact s T offset length pre post r hsplit hpre hr hx,
        (removeTagT_of_first_inexact s T offset length pre post r hsplit hpre hr hx).1,
        (removeTagT_of_first_inexact s T offset length pre post r hsplit hpre hr hx).2,
        addTagIfAbsent_of_error s T offset length _
          (findTag_of_first_inexact s T offset length pre post r hsplit hpre hr hx),
        getTagT_of_first_inexact s T offset length pre post r hsplit hpre hr hx,
        findTag_of_first_inexact s T offset length pre post r hsplit hpre hr hx]
      refine ⟨fun e h => ?_, fun e h => ?_, fun e h => ?_, fun e h => ?_, fun e h => ?_,
        fun e h => ?_⟩
      · injection h with h; exact ⟨rfl, Or.inr h.symm⟩
      · injection h with h; exact ⟨rfl, Or.inr h.symm⟩
      · injection h with h; exact ⟨rfl, h.symm⟩
      · injection h with h; exact ⟨rfl, h.symm⟩
      · injection h with h; exact Or.inr h.symm
      · injection h with h; exact h.symm

/-- Instance of `typed_failures_atomic`: after `add<T>(0, 10)`, a second `add<T>(0, 10)` fails
with tag-present, `add<T>(5, 10)` fails with overlap and `remove<T>(20, 5)` fails with
tag-absent, each leaving the one stored region. -/
theorem typed_failures_atomic_witness :
    ((RegionTagSet.mk (some [⟨0, 10, Tag.new 0⟩])).addTagT 0 0 10).1 = .error .tagPresent
      ∧ ((RegionTagSet.mk (some [⟨0, 10, Tag.new 0⟩])).addTagT 0 0 10).2
          = ⟨some [⟨0, 10, Tag.new 0⟩]⟩
      ∧ ((RegionTagSet.mk (some [⟨0, 10, Tag.new 0⟩])).addTagT 0 5 10).1
          = .error .overlappingTag
      ∧ ((RegionTagSet.mk (some [⟨0, 10, Tag.new 0⟩])).addTagT 0 5 10).2
          = ⟨some [⟨0, 10, Tag.new 0⟩]⟩
      ∧ ((RegionTagSet.mk (some [⟨0, 10, Tag.new 0⟩])).removeTagT 0 20 5).1
          = .error .tagAbsent
      ∧ ((RegionTagSet.mk (some [⟨0, 10, Tag.new 0⟩])).removeTagT 0 20 5).2
          = ⟨some [⟨0, 10, Tag.new 0⟩]⟩ :=
  ⟨by decide,
    ((typed_failures_atomic ⟨some [⟨0, 10, Tag.new 0⟩]⟩ 0 0 10).1 .tagPresent (by decide)).1,
    by decide,
    ((typed_failures_atomic ⟨some [⟨0, 10, Tag.new 0⟩]⟩ 0 5 10).1 .overlappingTag
      (by decide)).1,
    by decide,
    ((typed_failures_atomic ⟨some [⟨0, 10, Tag.new 0⟩]⟩ 0 20 5).2.1 .tagAbsent (by decide)).1⟩

/-- With an index inside the vector, raw `removeTag(int)` erases exactly that position and
returns a dangling pointer; with any other index, on any store including the freshly constructed
one, the access is out of bounds, never an index error. -/
theorem removeTag_by_index (s : RegionTagSet) :
    (∀ i : Nat, i < s.tags.length →
        s.removeTag (i : Int) = (.ok .dangling, ⟨some (s.tags.eraseIdx i)⟩)
          ∧ (s.removeTag (i : Int)).2.getNumTags = s.getNumTags - 1)
      ∧ (∀ index : Int, ¬ (0 ≤ index ∧ index < s.getNumTags) →
        (s.removeTag index).1 = .error .undefinedBehavior
          ∧ (s.removeTag index).1 ≠ .error .indexOutOfRange) := by
  constructor
  · intro i hi
    obtain ⟨_ | v⟩ := s
    · simp [tags] at hi
    · simp only [tags, Option.getD_some] at hi ⊢
      have h1 : removeTag ⟨some v⟩ (i : Int) = (.ok .dangling, ⟨some (v.eraseIdx i)⟩) := by
        unfold removeTag
        simp only
        rw [if_neg (by omega), Int.toNat_ofNat, List.getElem?_eq_getElem hi]
      refine ⟨h1, ?_⟩
      rw [h1, getNumTags_eq, getNumTags_eq]
      simp only [tags, Option.getD_some, List.length_eraseIdx, if_pos hi]
      omega
  · intro index h
    have key : (s.removeTag index).1 = .error .undefinedBehavior := by
      obtain ⟨_ | v⟩ := s
      · rfl
      · unfold removeTag
        simp only
        by_cases hneg : index < 0
        · rw [if_pos hneg]
        · rw [if_neg hneg]
          have hge : v.length ≤ index.toNat := by
            rw [getNumTags_eq] at h
            simp only [tags, Option.getD_some] at h
            omega
          rw [List.getElem?_eq_none hge]
    rw [key]
    exact ⟨rfl, by decide⟩

/-- C23 fails on the code in both halves. Raw `removeTag(int)` reads `(*regionTags)[index]`
without a check: with one region stored, index 5 and index -1 are out-of-bounds accesses, and on
the freshly constructed store index 0 dereferences `nullptr`; none raises an index error, unlike
the checked `getRegionTag`, which throws for index 5. And with the valid index 1 on a store of
three regions it erases that region but returns a dangling pointer, the tag having been deleted
by `erase`, while `getTag(1)` returned the live tag of value 7 before the call. -/
theorem removeTag_index_unchecked :
    ((RegionTagSet.mk (some [⟨0, 10, Tag.new 0⟩])).removeTag 5).1 = .error .undefinedBehavior
      ∧ ((RegionTagSet.mk (some [⟨0, 10, Tag.new 0⟩])).removeTag (-1)).1
          = .error .undefinedBehavior
      ∧ (empty.removeTag 0).1 = .error .undefinedBehavior
      ∧ ((RegionTagSet.mk (some [⟨0, 10, Tag.new 0⟩])).removeTag 5).1 ≠ .error .indexOutOfRange
      ∧ (RegionTagSet.mk (some [⟨0, 10, Tag.new 0⟩])).getRegionTag 5 = .error .indexOutOfRange
      ∧ (RegionTagSet.mk (some [⟨0, 10, Tag.new 0⟩, ⟨5, 10, ⟨1, 7⟩⟩, ⟨20, 5, Tag.new 0⟩])).getTag 1
          = .ok ⟨1, 7⟩
      ∧ (RegionTagSet.mk (some [⟨0, 10, Tag.new 0⟩, ⟨5, 10, ⟨1, 7⟩⟩,
            ⟨20, 5, Tag.new 0⟩])).removeTag 1
          = (.ok .dangling, ⟨some [⟨0, 10, Tag.new 0⟩, ⟨20, 5, Tag.new 0⟩]⟩) := by
  decide

/-- Outside the cleared range, a region that does not take the splitting branch covers the same
coordinates after the loop body as before, with the same tag; a region that is erased covers
none of them. -/
theorem clearStep_covers (cs ce p : Int) (r : RegionTag) (hp : ¬ (cs ≤ p ∧ p < ce))
    (hns : ¬ takesSplit cs ce r) :
    (clearStep cs ce r = none → ¬ covers r p)
      ∧ (∀ r', clearStep cs ce r = some r' → (covers r' p ↔ covers r p) ∧ r'.tag = r.tag) := by
  simp only [clearStep, takesSplit, covers, RegionTag.getStartOffset, RegionTag.getEndOffset,
    RegionTag.setLength, RegionTag.setOffset] at hns ⊢
  constructor
  · intro h
    split_ifs at h
    omega
  · intro r' h
    split_ifs at h <;> simp only [Option.some.injEq, reduceCtorEq] at h <;> subst h <;>
      (try dsimp only) <;> refine ⟨?_, rfl⟩ <;> omega

theorem covered_tags_filterMap_clearStep (cs ce p : Int) (hp : ¬ (cs ≤ p ∧ p < ce)) :
    ∀ v : List RegionTag, (∀ r ∈ v, ¬ takesSplit cs ce r) →
      ((v.filterMap (clearStep cs ce)).filter fun r => covers r p).map (fun r => r.tag)
        = (v.filter fun r => covers r p).map (fun r => r.tag) := by
  intro v
  induction v with
  | nil => intro _; rfl
  | cons r v ih =>
    intro hns
    have hr := clearStep_covers cs ce p r hp (hns r (List.mem_cons_self _ _))
    have ihv := ih fun x hx => hns x (List.mem_cons_of_mem _ hx)
    rw [List.filterMap_cons]
    cases hc : clearStep cs ce r with
    | none =>
      have hnc := hr.1 hc
      simp only [List.filter_cons, hnc, decide_False, Bool.false_eq_true, if_false]
      exact ihv
    | some r' =>
      obtain ⟨hiff, htag⟩ := hr.2 r' hc
      simp only [List.filter_cons]
      by_cases hcov : covers r p
      · have hcov' : covers r' p := hiff.2 hcov
        simp only [hcov, hcov', decide_True, if_true, List.map_cons, htag, ihv]
      · have hcov' : ¬ covers r' p := fun h => hcov (hiff.1 h)
        simp only [hcov, hcov', decide_False, Bool.false_eq_true, if_false]
        exact ihv

/-- Whenever `clearTags` returns, it has changed nothing outside the range: at every coordinate
outside `[offset, offset + length)` the tags of the regions covering it are the same, in the same
order, and every region that does not intersect the range is still stored as it was. -/
theorem clearTags_frame (s s' : RegionTagSet) (offset length : Int)
    (h : s.clearTags offset length = .ok s') :
    (∀ p : Int, ¬ (offset ≤ p ∧ p < offset + length) →
        (s'.tags.filter fun r => covers r p).map (fun r => r.tag)
          = (s.tags.filter fun r => covers r p).map (fun r => r.tag))
      ∧ (∀ r ∈ s.tags, ¬ r.intersects offset length → r ∈ s'.tags) := by
  obtain ⟨hns, rfl⟩ := (clearTags_ok_iff s offset length s').1 h
  rw [tags_map_filterMap]
  constructor
  · intro p hp
    exact covered_tags_filterMap_clearStep offset (offset + length) p hp s.tags hns
  · intro r hr hni
    rw [List.mem_filterMap]
    refine ⟨r, hr, ?_⟩
    have hc : offset + length ≤ r.getStartOffset ∨ r.getEndOffset ≤ offset := by
      simp only [RegionTag.intersects] at hni
      omega
    simp only [clearStep, if_pos hc]

/-- C25 fails on the code at `clear(5, 10)` of a store holding `T0` at `[0, 20)` and `T1` at
`[30, 35)`: coordinate 2 lies outside `[5, 15)` and is covered by the first region, and the second
region does not intersect the range, but the first region strictly contains the range, so the
loop takes its splitting branch at every step and no store after the call is ever produced. -/
theorem clearTags_frame_lost_when_range_strictly_inside :
    covers ⟨0, 20, Tag.new 0⟩ 2
      ∧ ¬ ((5 : Int) ≤ 2 ∧ (2 : Int) < 5 + 10)
      ∧ ¬ (RegionTag.mk 30 5 (Tag.new 1)).intersects 5 10
      ∧ (RegionTagSet.mk (some [⟨0, 20, Tag.new 0⟩, ⟨30, 5, Tag.new 1⟩])).clearTags 5 10
          = .error .nonTermination
      ∧ (∀ fuel, clearTagsLoop 5 (5 + 10) fuel 0 [⟨0, 20, Tag.new 0⟩, ⟨30, 5, Tag.new 1⟩]
          = .error .nonTermination) :=
  ⟨by decide, by decide, by decide, by decide, fun fuel =>
    clearTagsLoop_diverges 5 (5 + 10) fuel [] _ ⟨⟨0, 20, Tag.new 0⟩, by simp,
      by simp [takesSplit, RegionTag.getStartOffset, RegionTag.getEndOffset]⟩⟩

/-- Every region `splitTags` inserts starts at the split offset and has length 0. -/
theorem splitTagsLoop_inserted (offset : Int) (v : List RegionTag) :
    ∀ x ∈ (splitTagsLoop offset v).2, x.offset = offset ∧ x.length = 0 := by
  induction v with
  | nil => intro x hx; simp [splitTagsLoop] at hx
  | cons r v ih =>
    intro x hx
    rw [splitTagsLoop] at hx
    dsimp only at hx
    split at hx
    · rcases List.mem_cons.1 hx with h | h
      · rw [h]
        simp [RegionTag.getEndOffset, RegionTag.setLength, RegionTag.getStartOffset]
      · exact ih x h
    · exact ih x hx

/-- C26 fails on the code at its own example, `T` at `[0, 20)` and the mutating
`forEachTag<T>(5, 10)`: the read-only traversal reports the slice `[5, 15)`, but the first
`splitTags` leaves `[0, 5)` and an inserted `(5, 0)`, neither of which intersects `[5, 15)`, so
the mutating traversal calls `f` zero times. -/
theorem mapAllTagsMutT_calls_nothing :
    (RegionTagSet.mk (some [⟨0, 20, Tag.new 0⟩])).SameTypeDisjoint
      ∧ (RegionTagSet.mk (some [⟨0, 20, Tag.new 0⟩])).mapAllTagsT 0 5 10
          = .ok [⟨5, 10, Tag.new 0⟩]
      ∧ (RegionTagSet.mk (some [⟨0, 20, Tag.new 0⟩])).mapAllTagsMutT 0 5 10
          = (.ok [], ⟨some [⟨0, 5, Tag.new 0⟩, ⟨5, 0, Tag.new 0⟩]⟩) := by
  decide

/-- C27 fails on the code: `splitTags<T>` never consults `T`, so it gives the same store for
every type parameter, and `align<T0>(5)` on a store holding only `T1` at `[0, 20)` cuts that
region to `[0, 5)` and inserts a second `T1` region `(5, 0)`. -/
theorem splitTags_splits_other_types :
    (∀ (s : RegionTagSet) (T T' : Nat) (offset : Int), s.splitTags T offset = s.splitTags T' offset)
      ∧ (RegionTagSet.mk (some [⟨0, 20, Tag.new 1⟩])).splitTags 0 5
          = ⟨some [⟨0, 5, Tag.new 1⟩, ⟨5, 0, Tag.new 1⟩]⟩
      ∧ ((RegionTagSet.mk (some [⟨0, 20, Tag.new 1⟩])).splitTags 0 5).getNumTags = 2 :=
  ⟨fun _ _ _ _ => rfl, by decide, by decide⟩

/-- C28 fails on the code: `align<T>(5)` on `T` at `[0, 20)` leaves `[0, 5)` and `(5, 0)`, not
`[0, 5)` and `[5, 20)`: the length of the new region is computed from the end offset after the
old region has been shortened. Coordinate 10 is covered by the tag before the call and by nothing
after it. -/
theorem splitTags_loses_right_half :
    (RegionTagSet.mk (some [⟨0, 20, Tag.new 0⟩])).splitTags 0 5
        = ⟨some [⟨0, 5, Tag.new 0⟩, ⟨5, 0, Tag.new 0⟩]⟩
      ∧ (RegionTagSet.mk (some [⟨0, 20, Tag.new 0⟩])).splitTags 0 5
        ≠ ⟨some [⟨0, 5, Tag.new 0⟩, ⟨5, 15, Tag.new 0⟩]⟩
      ∧ (RegionTagSet.mk (some [⟨0, 20, Tag.new 0⟩])).tags.filter (fun r => covers r 10)
        = [⟨0, 20, Tag.new 0⟩]
      ∧ ((RegionTagSet.mk (some [⟨0, 20, Tag.new 0⟩])).splitTags 0 5).tags.filter
          (fun r => covers r 10) = [] := by
  decide

/-- C29 as stated fails: `find<T>` is `const` and `getTagIndex` does not call `splitTags`; on a
store holding `T` at `[0, 20)`, `find<T>(5, 10)` and `get<T>(5, 10)` raise the overlap error. -/
theorem findTag_subrange_overlap :
    (RegionTagSet.mk (some [⟨0, 20, Tag.new 0⟩])).findTag 0 5 10 = .error .overlappingTag
      ∧ (RegionTagSet.mk (some [⟨0, 20, Tag.new 0⟩])).getTagT 0 5 10
          = .error .overlappingTag := by
  decide

/-- C29, amended: exact-match queries do not align. On a store holding the single region
`[s, s + len)` of type `T`, for every offset and positive length with `s ≤ offset` and
`offset + length ≤ s + len`, `find<T>(offset, length)` returns the tag when the range is exactly
the stored one and raises the overlap error for every proper sub-range; `find<T>` is `const`, so
the store still holds only `[s, s + len)`. -/
theorem findTag_single_subrange (T : Nat) (t : Tag) (s len offset length : Int)
    (ht : t.typeId = T) (hl : 0 < length) (h1 : s ≤ offset) (h2 : offset + length ≤ s + len) :
    (RegionTagSet.mk (some [⟨s, len, t⟩])).findTag T offset length
      = if offset = s ∧ length = len then .ok (some t) else .error .overlappingTag := by
  have hr : (RegionTag.mk s len t).tag.typeId = T
      ∧ (RegionTag.mk s len t).intersects offset length := by
    refine ⟨ht, ?_⟩
    simp only [RegionTag.intersects, RegionTag.getStartOffset, RegionTag.getEndOffset]
    omega
  by_cases hx : offset = s ∧ length = len
  · rw [if_pos hx]
    exact findTag_of_first_exact _ T offset length [] [] ⟨s, len, t⟩ rfl (by simp) hr
      ⟨hx.1.symm, hx.2.symm⟩
  · rw [if_neg hx]
    exact findTag_of_first_inexact _ T offset length [] [] ⟨s, len, t⟩ rfl (by simp) hr
      (fun h => hx ⟨h.1.symm, h.2.symm⟩)

/-- Instance of `findTag_single_subrange`: `T` at `[0, 20)`; `find<T>(5, 10)` raises the overlap
error and `find<T>(0, 20)` returns the tag. -/
theorem findTag_single_subrange_witness :
    (RegionTagSet.mk (some [⟨0, 20, ⟨0, 7⟩⟩])).findTag 0 5 10 = .error .overlappingTag
      ∧ (RegionTagSet.mk (some [⟨0, 20, ⟨0, 7⟩⟩])).findTag 0 0 20 = .ok (some ⟨0, 7⟩) :=
  ⟨findTag_single_subrange 0 ⟨0, 7⟩ 0 20 5 10 rfl (by decide) (by decide) (by decide),
    findTag_single_subrange 0 ⟨0, 7⟩ 0 20 0 20 rfl (by decide) (by decide) (by decide)⟩

theorem filterMap_clearStep_of_not_intersecting (offset length : Int) :
    ∀ v : List RegionTag, (∀ r ∈ v, ¬ r.intersects offset length) →
      v.filterMap (clearStep offset (offset + length)) = v := by
  intro v
  induction v with
  | nil => intro _; rfl
  | cons r v ih =>
    intro h
    have hr := h r (List.mem_cons_self _ _)
    have hc : offset + length ≤ r.getStartOffset ∨ r.getEndOffset ≤ offset := by
      simp only [RegionTag.intersects] at hr
      omega
    have hstep : clearStep offset (offset + length) r = some r := by
      simp only [clearStep, if_pos hc]
    rw [List.filterMap_cons, hstep, ih fun x hx => h x (List.mem_cons_of_mem _ hx)]

/-- On a store none of whose regions intersects the range, `clearTags` returns and changes
nothing. -/
theorem clearTags_of_not_intersecting (s : RegionTagSet) (offset length : Int)
    (h : ∀ r ∈ s.tags, ¬ r.intersects offset length) : s.clearTags offset length = .ok s := by
  have hns : ∀ r ∈ s.tags, ¬ takesSplit offset (offset + length) r := by
    intro r hr hs
    apply hs.1
    have := h r hr
    simp only [RegionTag.intersects] at this
    omega
  rw [clearTags_of_noSplit s offset length hns]
  obtain ⟨_ | v⟩ := s
  · rfl
  · have hv := filterMap_clearStep_of_not_intersecting offset length v h
    simp only [Option.map_some']
    rw [hv]

/-- C31 fails on the code when a stored region strictly contains the range. The store holds one
region `[0, 30)` and the range is `(10, 5)`, all lengths positive: the first `clearTags(10, 5)`
takes the splitting branch at every step and is still running after any number of steps, so
neither one call nor two calls in a row yield an interval list. -/
theorem clearTags_twice_diverges_inside_region :
    (∀ r ∈ (RegionTagSet.mk (some [⟨0, 30, Tag.new 0⟩])).tags, 0 ≤ r.length)
      ∧ (0 : Int) ≤ 5
      ∧ (RegionTagSet.mk (some [⟨0, 30, Tag.new 0⟩])).clearTags 10 5 = .error .nonTermination
      ∧ ((RegionTagSet.mk (some [⟨0, 30, Tag.new 0⟩])).clearTags 10 5).bind
          (fun s' => s'.clearTags 10 5) = .error .nonTermination
      ∧ (∀ fuel, clearTagsLoop 10 (10 + 5) fuel 0 [⟨0, 30, Tag.new 0⟩]
          = .error .nonTermination)
      ∧ (∀ fuel, clearTagsLoop 10 (10 + 5) (fuel + 1) 0 [⟨0, 30, Tag.new 0⟩]
          = clearTagsLoop 10 (10 + 5) fuel 1 [⟨15, -5, Tag.new 0⟩, ⟨0, 30, Tag.new 0⟩]) := by
  refine ⟨by decide, by decide, by decide, by decide, fun fuel =>
    clearTagsLoop_diverges 10 (10 + 5) fuel [] _ ⟨⟨0, 30, Tag.new 0⟩, by simp,
      by simp [takesSplit, RegionTag.getStartOffset, RegionTag.getEndOffset]⟩, fun fuel => ?_⟩
  rw [clearTagsLoop]
  simp [RegionTag.getStartOffset, RegionTag.getEndOffset, RegionTag.getTag, Tag.dup, updateSlot,
    RegionTag.setLength, RegionTag.setOffset]

/-- Where `clear` is idempotent. Whenever a first `clearTags(offset, length)` returns, in
particular whenever no stored region strictly contains the range, applying
`clearTags(offset, length)` to the store it returned gives that same store again. Interval
lengths and the range length need not be non-negative. -/
theorem clearTags_idempotent (s : RegionTagSet) (offset length : Int) :
    (∀ s', s.clearTags offset length = .ok s' → s'.clearTags offset length = .ok s')
      ∧ ((∀ r ∈ s.tags, ¬ r.strictlyContains offset length) →
          ∃ s', s.clearTags offset length = .ok s' ∧ s'.clearTags offset length = .ok s') := by
  have hsecond : ∀ s', s.clearTags offset length = .ok s' →
      s'.clearTags offset length = .ok s' := fun s' h =>
    clearTags_of_not_intersecting s' offset length
      (not_intersects_of_clearTags s s' offset length h)
  refine ⟨hsecond, fun hns => ?_⟩
  have hc := clearTags_of_noSplit s offset length
    fun r hr => not_takesSplit_of_not_strictlyContains r offset length (hns r hr)
  exact ⟨_, hc, hsecond _ hc⟩

end RegionTagSet

end inet
